import Mathlib

/-!
Verification of the gocleo FST/FSA subsystem (package `fst`).

Shallow embedding conventions:
* Go `[]byte` and `string` keys are `List Nat` of byte values (each < 256 where
  it matters); total order is byte-lexicographic, mirroring `bytes.Compare` and
  Go string comparison.
* Go `uint64` outputs are `Nat` (the code only stores and returns them, so no
  modular arithmetic is exercised).
* Go loops with integer cursors are embedded as structurally recursive
  functions on an explicit fuel argument; the fuel supplied at each call site
  is a bound on the iteration count of the Go loop, so the zero-fuel branch is
  unreachable and the embedding computes exactly what the loop computes.
* Mutation of a receiver is embedded as state passing: a method returns the
  updated structure (paired with the Go return values).
-/

/-- Byte strings: Go `[]byte` / `string` as a list of byte values. -/
abbrev ByteStr := List Nat

/-- `bytes.Compare` / Go string comparison: byte-lexicographic three-way
compare. -/
def bytesCompare : ByteStr → ByteStr → Ordering
  | [], [] => .eq
  | [], _ :: _ => .lt
  | _ :: _, [] => .gt
  | a :: as, b :: bs =>
    if a < b then .lt
    else if b < a then .gt
    else bytesCompare as bs

/-- `bytes.Compare a b < 0` — strict byte-lexicographic order. -/
def bytesLt (a b : ByteStr) : Prop := bytesCompare a b = .lt

/-- `bytes.Compare a b <= 0`. -/
def bytesLe (a b : ByteStr) : Prop := bytesCompare a b ≠ .gt

instance (a b : ByteStr) : Decidable (bytesLt a b) := by unfold bytesLt; infer_instance

instance (a b : ByteStr) : Decidable (bytesLe a b) := by unfold bytesLe; infer_instance

theorem bytesCompare_eq_iff {a b : ByteStr} : bytesCompare a b = .eq ↔ a = b := by
  induction a generalizing b with
  | nil => cases b <;> simp [bytesCompare]
  | cons x xs ih =>
    cases b with
    | nil => simp [bytesCompare]
    | cons y ys =>
      by_cases hxy : x < y
      · simp [bytesCompare, hxy]
        omega
      · by_cases hyx : y < x
        · simp [bytesCompare, hxy, hyx]
          omega
        · have hxy' : x = y := by omega
          simp [bytesCompare, hxy, hyx, hxy', ih]

theorem bytesCompare_swap {a b : ByteStr} : bytesCompare a b = .lt ↔ bytesCompare b a = .gt := by
  induction a generalizing b with
  | nil => cases b <;> simp [bytesCompare]
  | cons x xs ih =>
    cases b with
    | nil => simp [bytesCompare]
    | cons y ys =>
      by_cases hxy : x < y
      · have : ¬ y < x := by omega
        simp [bytesCompare, hxy, this]
      · by_cases hyx : y < x
        · simp [bytesCompare, hxy, hyx]
        · simp [bytesCompare, hxy, hyx, ih]

theorem bytesLt_trans {a b c : ByteStr} (h₁ : bytesLt a b) (h₂ : bytesLt b c) : bytesLt a c := by
  unfold bytesLt at *
  induction a generalizing b c with
  | nil =>
    cases b with
    | nil => simp [bytesCompare] at h₁
    | cons y ys => cases c with
      | nil => simp [bytesCompare] at h₂
      | cons z zs => simp [bytesCompare]
  | cons x xs ih =>
    cases b with
    | nil => simp [bytesCompare] at h₁
    | cons y ys =>
      cases c with
      | nil => simp [bytesCompare] at h₂
      | cons z zs =>
        rw [bytesCompare] at h₁ h₂ ⊢
        by_cases hxy : x < y
        · by_cases hyz : y < z
          · rw [if_pos (show x < z by omega)]
          · rw [if_neg hyz] at h₂
            by_cases hzy : z < y
            · rw [if_pos hzy] at h₂; exact absurd h₂ (by simp)
            · rw [if_pos (show x < z by omega)]
        · rw [if_neg hxy] at h₁
          by_cases hyx : y < x
          · rw [if_pos hyx] at h₁; exact absurd h₁ (by simp)
          · rw [if_neg hyx] at h₁
            by_cases hyz : y < z
            · rw [if_pos (show x < z by omega)]
            · rw [if_neg hyz] at h₂
              by_cases hzy : z < y
              · rw [if_pos hzy] at h₂; exact absurd h₂ (by simp)
              · rw [if_neg hzy] at h₂
                rw [if_neg (show ¬ x < z by omega), if_neg (show ¬ z < x by omega)]
                exact ih h₁ h₂

theorem bytesLt_irrefl (a : ByteStr) : ¬ bytesLt a a := by
  intro h
  unfold bytesLt at h
  rw [bytesCompare_eq_iff.mpr rfl] at h
  exact absurd h (by simp)

theorem bytesLt_ne {a b : ByteStr} (h : bytesLt a b) : a ≠ b := by
  intro heq; subst heq; exact bytesLt_irrefl a h

theorem bytesCompare_cases (a b : ByteStr) :
    bytesLt a b ∨ a = b ∨ bytesLt b a := by
  rcases h : bytesCompare a b with _ | _ | _
  · exact Or.inl h
  · exact Or.inr (Or.inl (bytesCompare_eq_iff.mp h))
  · exact Or.inr (Or.inr (bytesCompare_swap.mpr h))

theorem bytesLe_iff {a b : ByteStr} : bytesLe a b ↔ bytesLt a b ∨ a = b := by
  unfold bytesLe bytesLt
  constructor
  · intro h
    rcases hc : bytesCompare a b with _ | _ | _
    · exact Or.inl rfl
    · exact Or.inr (bytesCompare_eq_iff.mp hc)
    · exact absurd hc h
  · intro h
    rcases h with h | h
    · simp [h]
    · simp [bytesCompare_eq_iff.mpr h]

theorem not_bytesLt_iff {a b : ByteStr} : ¬ bytesLt a b ↔ bytesLe b a := by
  constructor
  · intro h
    rcases bytesCompare_cases a b with h' | h' | h'
    · exact absurd h' h
    · exact bytesLe_iff.mpr (Or.inr h'.symm)
    · exact bytesLe_iff.mpr (Or.inl h')
  · intro h hlt
    rcases bytesLe_iff.mp h with h' | h'
    · exact bytesLt_irrefl a (bytesLt_trans hlt h')
    · subst h'; exact bytesLt_irrefl _ hlt

theorem bytesLt_of_le_of_lt {a b c : ByteStr} (h₁ : bytesLe a b) (h₂ : bytesLt b c) : bytesLt a c := by
  rcases bytesLe_iff.mp h₁ with h | h
  · exact bytesLt_trans h h₂
  · subst h; exact h₂

theorem bytesLe_refl (a : ByteStr) : bytesLe a a := bytesLe_iff.mpr (Or.inr rfl)

theorem bytesLe_trans {a b c : ByteStr} (h₁ : bytesLe a b) (h₂ : bytesLe b c) : bytesLe a c := by
  rcases bytesLe_iff.mp h₁ with h | h
  · rcases bytesLe_iff.mp h₂ with h' | h'
    · exact bytesLe_iff.mpr (Or.inl (bytesLt_trans h h'))
    · subst h'; exact bytesLe_iff.mpr (Or.inl h)
  · subst h; exact h₂

theorem bytesLe_total (a b : ByteStr) : bytesLe a b ∨ bytesLe b a := by
  rcases bytesCompare_cases a b with h | h | h
  · exact Or.inl (bytesLe_iff.mpr (Or.inl h))
  · exact Or.inl (bytesLe_iff.mpr (Or.inr h))
  · exact Or.inr (bytesLe_iff.mpr (Or.inl h))

theorem bytesLt_of_le_of_ne {a b : ByteStr} (h : bytesLe a b) (hne : a ≠ b) : bytesLt a b := by
  rcases bytesLe_iff.mp h with h' | h'
  · exact h'
  · exact absurd h' hne

/-- `sort.Strings` / `sort.Slice(..., bytes.Compare < 0)`: the code sorts a
list of mutually distinct keys ascending; since byte-equal keys are equal
lists, every correct sort produces the same output, so we embed the sort by
a sorted-permutation implementation (insertion sort). -/
def insertKey (k : ByteStr) : List ByteStr → List ByteStr
  | [] => [k]
  | x :: xs => if bytesLe k x then k :: x :: xs else x :: insertKey k xs

/-- See `insertKey`. -/
def sortStrings (l : List ByteStr) : List ByteStr := l.foldr insertKey []

theorem insertKey_perm (k : ByteStr) (l : List ByteStr) : List.Perm (insertKey k l) (k :: l) := by
  induction l with
  | nil => simp [insertKey]
  | cons x xs ih =>
    by_cases h : bytesLe k x
    · simp [insertKey, h]
    · simp only [insertKey, if_neg h]
      exact ((ih.cons x).trans (List.Perm.swap k x xs))

theorem sortStrings_perm (l : List ByteStr) : List.Perm (sortStrings l) l := by
  induction l with
  | nil => simp [sortStrings]
  | cons x xs ih =>
    simp only [sortStrings, List.foldr] at *
    exact (insertKey_perm x _).trans (ih.cons x)

theorem insertKey_sorted {k : ByteStr} {l : List ByteStr} (h : l.Pairwise bytesLe) :
    (insertKey k l).Pairwise bytesLe := by
  induction l with
  | nil => simp [insertKey, List.pairwise_cons]
  | cons x xs ih =>
    rcases List.pairwise_cons.mp h with ⟨hx, hxs⟩
    by_cases hle : bytesLe k x
    · simp only [insertKey, if_pos hle]
      refine List.pairwise_cons.mpr ⟨?_, h⟩
      intro y hy
      rcases List.mem_cons.mp hy with h' | h'
      · subst h'; exact hle
      · exact bytesLe_trans hle (hx _ h')
    · have hxk : bytesLe x k := (bytesLe_total k x).resolve_left hle
      simp only [insertKey, if_neg hle]
      refine List.pairwise_cons.mpr ⟨?_, ih hxs⟩
      intro y hy
      rcases List.mem_cons.mp ((insertKey_perm k xs).mem_iff.mp hy) with h' | h'
      · subst h'; exact hxk
      · exact hx _ h'

theorem sortStrings_sorted (l : List ByteStr) : (sortStrings l).Pairwise bytesLe := by
  induction l with
  | nil => simp [sortStrings]
  | cons x xs ih => exact insertKey_sorted ih

theorem sortStrings_eq_self {l : List ByteStr} (h : l.Pairwise bytesLt) : sortStrings l = l := by
  induction l with
  | nil => rfl
  | cons x xs ih =>
    rcases List.pairwise_cons.mp h with ⟨hx, hxs⟩
    have hrec : sortStrings xs = xs := ih hxs
    show insertKey x (sortStrings xs) = x :: xs
    rw [hrec]
    cases xs with
    | nil => rfl
    | cons y ys =>
      have : bytesLe x y := bytesLe_iff.mpr (Or.inl (hx y (by simp)))
      simp [insertKey, this]

theorem sortStrings_pairwise_lt {l : List ByteStr} (hnd : l.Nodup) :
    (sortStrings l).Pairwise bytesLt := by
  have hsorted := sortStrings_sorted l
  have hnd' : (sortStrings l).Nodup := (sortStrings_perm l).nodup_iff.mpr hnd
  exact (hsorted.and hnd').imp (fun hab => bytesLt_of_le_of_ne hab.1 hab.2)

/-- Sortedness gives element-wise comparison by index. -/
theorem pairwise_get {R : ByteStr → ByteStr → Prop} {l : List ByteStr} (h : l.Pairwise R)
    {i j : Nat} (hi : i < l.length) (hj : j < l.length) (hij : i < j) :
    R (l.get ⟨i, hi⟩) (l.get ⟨j, hj⟩) :=
  List.pairwise_iff_get.mp h ⟨i, hi⟩ ⟨j, hj⟩ hij

/-- The half-interval binary-search loop shared (with identical control flow)
by `SimpleFSAIterator.Seek` (part_006, lines 161-170) and Go `sort.Search`
(called through `sort.SearchStrings` by `FST.Get`, `FST.RangeIterator` and
`FST.PrefixIterator`, and through `sort.Search` by `Automaton.FindTransition`):
while `i < j`, probe `h := (i+j)/2`; `pred h` means the probed element is
still strictly below the target, so the loop sets `i := h+1`, otherwise
`j := h`; it returns `i`, the least index whose element is not below the
target.  `fuel` bounds the iteration count (the interval shrinks each round,
so any `fuel > j - i` is enough; callers pass `n + 1`). -/
def binLoop (pred : Nat → Bool) : Nat → Nat → Nat → Nat
  | 0, i, _ => i
  | fuel + 1, i, j =>
    if i < j then
      -- h := (i + j) / 2
      if pred ((i + j) / 2) then binLoop pred fuel ((i + j) / 2 + 1) j
      else binLoop pred fuel i ((i + j) / 2)
    else i

theorem binLoop_spec (pred : Nat → Bool) (n : Nat)
    (hdc : ∀ i j, i ≤ j → j < n → pred j = true → pred i = true) :
    ∀ fuel i j, j - i < fuel → i ≤ j → j ≤ n →
    (∀ k, k < i → pred k = true) → (∀ k, j ≤ k → k < n → pred k = false) →
    binLoop pred fuel i j ≤ n ∧
    (∀ k, k < binLoop pred fuel i j → pred k = true) ∧
    (∀ k, binLoop pred fuel i j ≤ k → k < n → pred k = false) := by
  intro fuel
  induction fuel with
  | zero => intro i j hfuel; omega
  | succ fuel ih =>
    intro i j hfuel hij hjn hlow hhigh
    by_cases hlt : i < j
    · have hmid₁ : i ≤ (i + j) / 2 := by omega
      have hmid₂ : (i + j) / 2 < j := by omega
      simp only [binLoop, if_pos hlt]
      cases hp : pred ((i + j) / 2) with
      | true =>
        rw [if_pos (by simp [hp])]
        refine ih ((i + j) / 2 + 1) j (by omega) (by omega) hjn ?_ hhigh
        intro k hk
        exact hdc k ((i + j) / 2) (by omega) (by omega) hp
      | false =>
        rw [if_neg (by simp [hp])]
        refine ih i ((i + j) / 2) (by omega) (by omega) (by omega) hlow ?_
        intro k hk hkn
        cases hq : pred k with
        | false => rfl
        | true => exact absurd (hdc ((i + j) / 2) k hk hkn hq) (by simp [hp])
    · simp only [binLoop, if_neg hlt]
      have : i = j := by omega
      subst this
      exact ⟨hjn, hlow, fun k hk hkn => hhigh k hk hkn⟩

/-- Full-range instantiation of `binLoop_spec`. -/
theorem binLoop_lowerBound (pred : Nat → Bool) (n : Nat)
    (hdc : ∀ i j, i ≤ j → j < n → pred j = true → pred i = true) :
    binLoop pred (n + 1) 0 n ≤ n ∧
    (∀ k, k < binLoop pred (n + 1) 0 n → pred k = true) ∧
    (∀ k, binLoop pred (n + 1) 0 n ≤ k → k < n → pred k = false) :=
  binLoop_spec pred n hdc (n + 1) 0 n (by omega) (by omega) (le_refl n)
    (by omega) (by omega)

/-- The binary-search loop of `SimpleFSA.Contains` (part_006, lines 48-63):
three-way `bytes.Compare` with early return on equality.  `fuel` bounds the
iteration count (the caller passes `len(keys) + 1`, and the interval shrinks
every round). -/
def containsLoop (keys : List ByteStr) (key : ByteStr) : Nat → Nat → Nat → Bool
  | 0, _, _ => false
  | fuel + 1, left, right =>
    if left < right then
      -- mid := (left + right) / 2
      match bytesCompare (keys.getD ((left + right) / 2) []) key with
      | .lt => containsLoop keys key fuel ((left + right) / 2 + 1) right
      | .gt => containsLoop keys key fuel left ((left + right) / 2)
      | .eq => true
    else false

theorem containsLoop_spec (keys : List ByteStr) (key : ByteStr) (hs : keys.Pairwise bytesLt) :
    ∀ fuel left right, right - left < fuel → right ≤ keys.length →
    (∀ i (h : i < keys.length), i < left → bytesLt (keys.get ⟨i, h⟩) key) →
    (∀ i (h : i < keys.length), right ≤ i → bytesLt key (keys.get ⟨i, h⟩)) →
    (containsLoop keys key fuel left right = true ↔ key ∈ keys) := by
  intro fuel
  induction fuel with
  | zero => intro left right hfuel; omega
  | succ fuel ih =>
    intro left right hfuel hrn hlow hhigh
    by_cases hlr : left < right
    · have hmid₁ : left ≤ (left + right) / 2 := by omega
      have hmid₂ : (left + right) / 2 < right := by omega
      have hmidn : (left + right) / 2 < keys.length := by omega
      have hgetD : keys.getD ((left + right) / 2) [] = keys.get ⟨(left + right) / 2, hmidn⟩ := by
        simp [List.getD_eq_getElem?_getD, List.getElem?_eq_getElem hmidn]
      simp only [containsLoop, if_pos hlr, hgetD]
      rcases hc : bytesCompare (keys.get ⟨(left + right) / 2, hmidn⟩) key with _ | _ | _
      · -- probed element below the key: left := mid + 1
        refine ih ((left + right) / 2 + 1) right (by omega) hrn ?_ hhigh
        intro i h hi
        by_cases hi' : i < (left + right) / 2
        · exact bytesLt_trans (pairwise_get hs h hmidn hi') hc
        · have : i = (left + right) / 2 := by omega
          subst this
          exact hc
      · -- equality: found
        simp only [true_iff]
        exact bytesCompare_eq_iff.mp hc ▸ List.get_mem keys _ _
      · -- probed element above the key: right := mid
        have hkey : bytesLt key (keys.get ⟨(left + right) / 2, hmidn⟩) := bytesCompare_swap.mpr hc
        refine ih left ((left + right) / 2) (by omega) (by omega) hlow ?_
        intro i h hi
        by_cases hi' : (left + right) / 2 < i
        · exact bytesLt_trans hkey (pairwise_get hs hmidn h hi')
        · have : i = (left + right) / 2 := by omega
          subst this
          exact hkey
    · simp only [containsLoop, if_neg hlr]
      constructor
      · intro h; exact absurd h (by simp)
      · intro hmem
        rcases List.mem_iff_get.mp hmem with ⟨⟨i, hi⟩, hget⟩
        by_cases hil : i < left
        · exact absurd (hget ▸ hlow i hi hil) (bytesLt_irrefl key)
        · have hri : right ≤ i := by omega
          exact absurd (hget ▸ hhigh i hi hri) (bytesLt_irrefl key)

/-- `SimpleFSA` (part_006, lines 26-45): an array-backed FSA, a sorted list of
keys.  `NewSimpleFSA` copies and sorts the input (`sort.Slice` with
`bytes.Compare < 0`). -/
structure SimpleFSA where
  keys : List ByteStr

def NewSimpleFSA (keys : List ByteStr) : SimpleFSA := ⟨sortStrings keys⟩

/-- `SimpleFSA.Contains` (part_006, lines 48-63). -/
def SimpleFSA.Contains (fsa : SimpleFSA) (key : ByteStr) : Bool :=
  containsLoop fsa.keys key (fsa.keys.length + 1) 0 fsa.keys.length

theorem SimpleFSA.Contains_iff_mem {fsa : SimpleFSA}
    (hs : fsa.keys.Pairwise bytesLt) (key : ByteStr) :
    fsa.Contains key = true ↔ key ∈ fsa.keys :=
  containsLoop_spec fsa.keys key hs (fsa.keys.length + 1) 0 fsa.keys.length
    (by omega) (le_refl _) (by omega) (fun i h hi => by omega)

/-- `SimpleFSAIterator` (part_006, lines 102-109).  `pos` is a Go `int` that
starts at `-1`.  The `prefix`, `start`, `end` slice fields are modelled as
`Option ByteStr`: `none` is a nil slice (constraint absent), `some []` a non-nil
empty slice — the distinction matters because the Go code tests `!= nil`. -/
structure SimpleFSAIterator where
  keys : List ByteStr
  pos : Int
  pfx : Option ByteStr := none
  startK : Option ByteStr := none
  endK : Option ByteStr := none

/-- The scan loop of `SimpleFSAIterator.Next` (part_006, lines 112-142),
entered at the already-incremented cursor.  Returns Go's return value and the
final cursor.  In every reachable iterator state the incremented cursor is
≥ 0 (`pos` starts at -1 and only grows), so the loop cursor is a `Nat`; the
loop advances the cursor every iteration, so fuel `keys.length + 1` covers
every run. -/
def nextLoop (keys : List ByteStr) (pfx startK endK : Option ByteStr) :
    Nat → Nat → Bool × Nat
  | 0, pos => (false, pos)
  | fuel + 1, pos =>
    if pos < keys.length then
      -- key := iter.fsa.keys[iter.pos]
      if pfx.isSome && !((pfx.getD []).isPrefixOf (keys.getD pos [])) then
        if bytesCompare (keys.getD pos []) (pfx.getD []) == .gt &&
            !((keys.getD pos []).isPrefixOf (pfx.getD [])) then
          (false, pos)
        else
          nextLoop keys pfx startK endK fuel (pos + 1)
      else if startK.isSome && bytesCompare (keys.getD pos []) (startK.getD []) == .lt then
        nextLoop keys pfx startK endK fuel (pos + 1)
      else if endK.isSome && bytesCompare (keys.getD pos []) (endK.getD []) != .lt then
        (false, pos)
      else
        (true, pos)
    else (false, pos)

/-- `SimpleFSAIterator.Next` (part_006, lines 112-142). -/
def SimpleFSAIterator.Next (it : SimpleFSAIterator) : Bool × SimpleFSAIterator :=
  let r := nextLoop it.keys it.pfx it.startK it.endK (it.keys.length + 1) (it.pos + 1).toNat
  (r.1, { it with pos := (r.2 : Int) })

/-- `SimpleFSAIterator.Key` (part_006, lines 145-153): a copy of the current
key, or nil (`none`) when the cursor is out of range. -/
def SimpleFSAIterator.Key (it : SimpleFSAIterator) : Option ByteStr :=
  if 0 ≤ it.pos ∧ it.pos < it.keys.length then some (it.keys.getD it.pos.toNat []) else none

/-- `SimpleFSAIterator.Seek` (part_006, lines 161-174): binary search for the
first index holding a key ≥ target, position just before it, and delegate to
`Next`. -/
def SimpleFSAIterator.Seek (it : SimpleFSAIterator) (target : ByteStr) : Bool × SimpleFSAIterator :=
  let left := binLoop (fun h => bytesCompare (it.keys.getD h []) target == .lt)
      (it.keys.length + 1) 0 it.keys.length
  SimpleFSAIterator.Next { it with pos := (left : Int) - 1 }

/-- `SimpleFSA.Iterator` (part_006, lines 66-71). -/
def SimpleFSA.Iterator (fsa : SimpleFSA) : SimpleFSAIterator :=
  { keys := fsa.keys, pos := -1 }

/-- `SimpleFSA.PrefixIterator` (part_006, lines 74-80). -/
def SimpleFSA.PfxIterator (fsa : SimpleFSA) (p : ByteStr) : SimpleFSAIterator :=
  { keys := fsa.keys, pos := -1, pfx := some p }

/-- `SimpleFSA.RangeIterator` (part_006, lines 83-90). -/
def SimpleFSA.RangeIterator (fsa : SimpleFSA) (s e : ByteStr) : SimpleFSAIterator :=
  { keys := fsa.keys, pos := -1, startK := some s, endK := some e }

/-- With no constraints the `Next` scan loop stops at the first in-range
position. -/
theorem nextLoop_plain (keys : List ByteStr) (fuel pos : Nat) :
    nextLoop keys none none none (fuel + 1) pos =
      if pos < keys.length then (true, pos) else (false, pos) := by
  by_cases h : pos < keys.length <;> simp [nextLoop, h]

/-- The error kinds returned by the three builders.  Go returns distinct
`errors.New` / `fmt.Errorf` values ("empty keys are not supported" /
"empty keys not supported", "duplicate key: ...", "keys must be added in
lexicographic order..."); only the kind is observable to the claims. -/
inductive AddError where
  | emptyKey
  | duplicateKey
  | unorderedKey
deriving DecidableEq, Repr

/-- `SimpleFSABuilder` (builder.go, lines 17-28). -/
structure SimpleFSABuilder where
  keys : List ByteStr := []
  lastKey : Option ByteStr := none

def NewFSABuilder : SimpleFSABuilder := {}

/-- `SimpleFSABuilder.Add` (builder.go, lines 31-54): the updated builder
paired with the Go error value (mutations happen only after every check
passes). -/
def SimpleFSABuilder.Add (b : SimpleFSABuilder) (key : ByteStr) :
    SimpleFSABuilder × Option AddError :=
  if key.length = 0 then (b, some .emptyKey)
  else
    match b.lastKey with
    | some last =>
      if bytesLe key last then
        if key = last then (b, some .duplicateKey) else (b, some .unorderedKey)
      else ({ keys := b.keys ++ [key], lastKey := some key }, none)
    | none => ({ keys := b.keys ++ [key], lastKey := some key }, none)

/-- `SimpleFSABuilder.Build` (builder.go, lines 57-59); the Go error is
always nil. -/
def SimpleFSABuilder.Build (b : SimpleFSABuilder) : SimpleFSA :=
  NewSimpleFSA b.keys

/-- Feed keys to the builder in order, stopping at the first error, as the
corpus loaders in the repository do. -/
def SimpleFSABuilder.AddAll (b : SimpleFSABuilder) :
    List ByteStr → SimpleFSABuilder × Option AddError
  | [] => (b, none)
  | k :: ks =>
    match b.Add k with
    | (b', none) => b'.AddAll ks
    | (b', some e) => (b', some e)

theorem SimpleFSABuilder.AddAll_sorted :
    ∀ {K : List ByteStr} (b : SimpleFSABuilder),
    K.Pairwise bytesLt → (∀ k ∈ K, k ≠ []) →
    (∀ k ∈ K, ∀ last, b.lastKey = some last → bytesLt last k) →
    (b.AddAll K).2 = none ∧ (b.AddAll K).1.keys = b.keys ++ K := by
  intro K
  induction K with
  | nil => intro b _ _ _; simp [AddAll]
  | cons k ks ih =>
    intro b hs hne hlast
    rcases List.pairwise_cons.mp hs with ⟨hk, hks⟩
    have hklen : k.length ≠ 0 := by
      have := hne k (by simp)
      simpa [List.length_eq_zero] using this
    have hadd : b.Add k = ({ keys := b.keys ++ [k], lastKey := some k }, none) := by
      unfold SimpleFSABuilder.Add
      rw [if_neg hklen]
      match hl : b.lastKey with
      | none => rfl
      | some last =>
        have hlt : bytesLt last k := hlast k (by simp) last hl
        have : ¬ bytesLe k last := fun hle => bytesLt_irrefl k (bytesLt_of_le_of_lt hle hlt)
        simp [this]
    have := ih { keys := b.keys ++ [k], lastKey := some k } hks
      (fun k' hk' => hne k' (by simp [hk'])) ?_
    · unfold AddAll
      rw [hadd] at *
      simp only [AddAll] at this ⊢
      constructor
      · exact (by simpa [hadd] using this.1)
      · simpa [hadd, List.append_assoc] using this.2
    · intro k' hk' last hlastk
      simp only at hlastk
      cases hlastk
      exact hk k' hk'

/-- C3: for every sorted, duplicate-free set of non-empty keys added through
the FSA builder (`SimpleFSABuilder.Add`) and frozen with `Build`, every add
succeeds and the resulting FSA's `Contains(k)` is true for exactly the keys
`k` of the set. -/
theorem C3_build_contains {K : List ByteStr} (hs : K.Pairwise bytesLt)
    (hne : ∀ k ∈ K, k ≠ []) :
    (NewFSABuilder.AddAll K).2 = none ∧
    ∀ k : ByteStr, ((NewFSABuilder.AddAll K).1.Build.Contains k = true ↔ k ∈ K) := by
  have h := SimpleFSABuilder.AddAll_sorted NewFSABuilder hs hne (by simp [NewFSABuilder])
  refine ⟨h.1, fun k => ?_⟩
  have hkeys : (NewFSABuilder.AddAll K).1.keys = K := by
    simpa [NewFSABuilder] using h.2
  have hbuild : (NewFSABuilder.AddAll K).1.Build = ⟨K⟩ := by
    simp [SimpleFSABuilder.Build, NewSimpleFSA, hkeys, sortStrings_eq_self hs]
  rw [hbuild]
  exact SimpleFSA.Contains_iff_mem hs k

theorem C3_build_contains_witness :
    ([[97], [98]] : List ByteStr).Pairwise bytesLt ∧
    (∀ k ∈ ([[97], [98]] : List ByteStr), k ≠ []) ∧
    ((NewFSABuilder.AddAll [[97], [98]]).2 = none ∧
      ∀ k : ByteStr,
        ((NewFSABuilder.AddAll [[97], [98]]).1.Build.Contains k = true ↔ k ∈ [[97], [98]])) :=
  ⟨by decide, by decide, C3_build_contains (by decide) (by decide)⟩

theorem getD_eq_get (l : List ByteStr) (i : Nat) (h : i < l.length) :
    l.getD i [] = l.get ⟨i, h⟩ := by
  simp [List.getD_eq_getElem?_getD, List.getElem?_eq_getElem h]

theorem beq_lt_iff {a b : ByteStr} : (bytesCompare a b == Ordering.lt) = true ↔ bytesLt a b := by
  unfold bytesLt
  cases h : bytesCompare a b <;> decide

theorem beq_lt_false_iff {a b : ByteStr} :
    (bytesCompare a b == Ordering.lt) = false ↔ ¬ bytesLt a b := by
  unfold bytesLt
  cases h : bytesCompare a b <;> decide

theorem filter_eq_drop {p : ByteStr → Bool} :
    ∀ (l : List ByteStr) (m : Nat), m ≤ l.length →
    (∀ i (h : i < l.length), i < m → p (l.get ⟨i, h⟩) = false) →
    (∀ i (h : i < l.length), m ≤ i → p (l.get ⟨i, h⟩) = true) →
    l.filter p = l.drop m := by
  intro l
  induction l with
  | nil =>
    intro m hm _ _
    simp only [List.length_nil] at hm
    have : m = 0 := by omega
    subst this
    rfl
  | cons x xs ih =>
    intro m hm hlow hhigh
    cases m with
    | zero =>
      simp only [List.drop_zero]
      refine List.filter_eq_self.mpr ?_
      intro a ha
      rcases List.mem_iff_get.mp ha with ⟨⟨i, hi⟩, hget⟩
      exact hget ▸ hhigh i hi (by omega)
    | succ m' =>
      have hx : p x = false := hlow 0 (by simp) (by omega)
      simp only [List.filter_cons, hx, Bool.false_eq_true, if_false, List.drop_succ_cons]
      exact ih m' (by simpa using hm)
        (fun i hi him => by simpa using hlow (i + 1) (by simpa using hi) (by omega))
        (fun i hi him => by simpa using hhigh (i + 1) (by simpa using hi) (by omega))

/-- C5 counterexample: over the key set K = ["a", "b"], `Seek("a")` followed
by `Next()` leaves the iterator on "b" — not on the smallest key ≥ "a",
which is "a" itself (`Seek` already consumed it by calling `Next`
internally). -/
theorem C5_counterexample :
    (((SimpleFSAIterator.mk [[97], [98]] (-1) none none none).Seek [97]).2.Next).2.Key
        = some [98] ∧
    List.find? (fun k => decide (bytesLe [97] k)) [[97], [98]] = some [97] := by
  decide

/-- C5 amended: on an unconstrained iterator over sorted keys, `Seek(t)`
itself returns whether a key ≥ t exists and positions the iterator on the
smallest such key, so that `Key()` reads it; a subsequent `Next()` advances
past it to the second-smallest key ≥ t (or out of range). -/
theorem C5_seek {keys : List ByteStr} (hs : keys.Pairwise bytesLt) (p : Int) (t : ByteStr) :
    ((SimpleFSAIterator.mk keys p none none none).Seek t).1
        = (keys.filter (fun k => decide (bytesLe t k))).head?.isSome ∧
    ((SimpleFSAIterator.mk keys p none none none).Seek t).2.Key
        = (keys.filter (fun k => decide (bytesLe t k))).head? ∧
    ((((SimpleFSAIterator.mk keys p none none none).Seek t).2.Next).2.Key
        = (keys.filter (fun k => decide (bytesLe t k)))[1]?) := by
  have hdc : ∀ i j, i ≤ j → j < keys.length →
      (fun h => bytesCompare (keys.getD h []) t == Ordering.lt) j = true →
      (fun h => bytesCompare (keys.getD h []) t == Ordering.lt) i = true := by
    intro i j hij hj hp
    have hi : i < keys.length := by omega
    dsimp only at hp ⊢
    rw [getD_eq_get keys j hj, beq_lt_iff] at hp
    rw [getD_eq_get keys i hi, beq_lt_iff]
    rcases Nat.lt_or_ge i j with h | h
    · exact bytesLt_trans (pairwise_get hs hi hj h) hp
    · have : i = j := by omega
      subst this
      exact hp
  obtain ⟨hlbn, hlow, hhigh⟩ := binLoop_lowerBound _ keys.length hdc
  set lb := binLoop (fun h => bytesCompare (keys.getD h []) t == Ordering.lt)
      (keys.length + 1) 0 keys.length with hlb
  have hfilter : keys.filter (fun k => decide (bytesLe t k)) = keys.drop lb := by
    refine filter_eq_drop keys lb hlbn ?_ ?_
    · intro i h hi
      have hl := hlow i hi
      rw [getD_eq_get keys i h, beq_lt_iff] at hl
      simp only [decide_eq_false_iff_not]
      intro hle
      exact bytesLt_irrefl t (bytesLt_of_le_of_lt hle hl)
    · intro i h hi
      have hh := hhigh i hi h
      rw [getD_eq_get keys i h, beq_lt_false_iff] at hh
      simp only [decide_eq_true_eq]
      exact not_bytesLt_iff.mp hh
  have hseek : (SimpleFSAIterator.mk keys p none none none).Seek t
      = SimpleFSAIterator.Next (SimpleFSAIterator.mk keys ((lb : Int) - 1) none none none) := by
    simp [SimpleFSAIterator.Seek, hlb]
  rw [hseek, hfilter]
  have htonat : (((lb : Int) - 1) + 1).toNat = lb := by omega
  rcases Nat.lt_or_ge lb keys.length with hcase | hcase
  · -- a key ≥ t exists, at index lb
    have hnext : SimpleFSAIterator.Next (SimpleFSAIterator.mk keys ((lb : Int) - 1) none none none)
        = (true, SimpleFSAIterator.mk keys (lb : Int) none none none) := by
      simp only [SimpleFSAIterator.Next, htonat, nextLoop_plain, if_pos hcase]
    rw [hnext]
    have hkeylb : (SimpleFSAIterator.mk keys (lb : Int) none none none).Key
        = some (keys.get ⟨lb, hcase⟩) := by
      simp only [SimpleFSAIterator.Key]
      rw [if_pos]
      · rw [Int.toNat_ofNat]
        exact congrArg some (getD_eq_get keys lb hcase)
      · constructor
        · omega
        · exact_mod_cast hcase
    have hhead : (keys.drop lb).head? = some (keys.get ⟨lb, hcase⟩) := by
      rw [List.head?_eq_getElem?, List.getElem?_drop]
      simp [List.getElem?_eq_getElem hcase]
    refine ⟨by simp [hhead], by simp [hkeylb, hhead], ?_⟩
    rcases Nat.lt_or_ge (lb + 1) keys.length with hcase2 | hcase2
    · have hnext2 : (SimpleFSAIterator.mk keys (lb : Int) none none none).Next
          = (true, SimpleFSAIterator.mk keys ((lb + 1 : Nat) : Int) none none none) := by
        simp only [SimpleFSAIterator.Next]
        have h1 : ((lb : Int) + 1).toNat = lb + 1 := by omega
        rw [h1, nextLoop_plain, if_pos hcase2]
      rw [hnext2]
      simp only [SimpleFSAIterator.Key]
      rw [if_pos]
      · rw [Int.toNat_ofNat, List.getElem?_drop]
        rw [getD_eq_get keys (lb + 1) hcase2]
        simp [List.getElem?_eq_getElem hcase2]
      · constructor
        · omega
        · exact_mod_cast hcase2
    · have hnext2 : (SimpleFSAIterator.mk keys (lb : Int) none none none).Next
          = (false, SimpleFSAIterator.mk keys ((lb + 1 : Nat) : Int) none none none) := by
        simp only [SimpleFSAIterator.Next]
        have h1 : ((lb : Int) + 1).toNat = lb + 1 := by omega
        rw [h1, nextLoop_plain, if_neg (show ¬ (lb + 1 < keys.length) by omega)]
      rw [hnext2]
      simp only [SimpleFSAIterator.Key]
      rw [if_neg]
      · rw [List.getElem?_drop]
        symm
        exact List.getElem?_eq_none (by omega)
      · intro hcontra
        have := hcontra.2
        omega
  · -- no key ≥ t: lb = keys.length
    have hdrop : keys.drop lb = ([] : List ByteStr) := List.drop_eq_nil_of_le hcase
    have hnext : SimpleFSAIterator.Next (SimpleFSAIterator.mk keys ((lb : Int) - 1) none none none)
        = (false, SimpleFSAIterator.mk keys (lb : Int) none none none) := by
      simp only [SimpleFSAIterator.Next, htonat, nextLoop_plain,
        if_neg (show ¬ (lb < keys.length) by omega)]
    rw [hnext, hdrop]
    have hkeynone : (SimpleFSAIterator.mk keys (lb : Int) none none none).Key = none := by
      simp only [SimpleFSAIterator.Key]
      rw [if_neg]
      intro hcontra
      have := hcontra.2
      omega
    refine ⟨by simp, by simp [hkeynone], ?_⟩
    have hnext2 : (SimpleFSAIterator.mk keys (lb : Int) none none none).Next
        = (false, SimpleFSAIterator.mk keys ((lb + 1 : Nat) : Int) none none none) := by
      simp only [SimpleFSAIterator.Next]
      have h1 : ((lb : Int) + 1).toNat = lb + 1 := by omega
      rw [h1, nextLoop_plain, if_neg (show ¬ (lb + 1 < keys.length) by omega)]
    rw [hnext2]
    simp only [SimpleFSAIterator.Key]
    rw [if_neg]
    · simp
    · intro hcontra
      have := hcontra.2
      omega

theorem C5_seek_witness :
    ([[97], [98]] : List ByteStr).Pairwise bytesLt ∧
    (((SimpleFSAIterator.mk [[97], [98]] (-1) none none none).Seek [98]).1
        = (([[97], [98]] : List ByteStr).filter (fun k => decide (bytesLe [98] k))).head?.isSome) :=
  ⟨by decide, (C5_seek (by decide) (-1) [98]).1⟩

/-- `FSTBuilder` (fst.go, lines 15-26): parallel key/value lists. -/
structure FSTBuilder where
  keys : List ByteStr := []
  values : List Nat := []

def NewFSTBuilder : FSTBuilder := {}

/-- `FSTBuilder.Add` (fst.go, lines 29-48): a duplicate scan over all
previously accepted keys, then an ordering check against the last accepted
key.  There is no empty-key check. -/
def FSTBuilder.Add (b : FSTBuilder) (key : ByteStr) (value : Nat) :
    FSTBuilder × Option AddError :=
  if b.keys.contains key then (b, some .duplicateKey)
  else if 0 < b.keys.length ∧ bytesLe key (b.keys.getD (b.keys.length - 1) []) then
    (b, some .unorderedKey)
  else ({ keys := b.keys ++ [key], values := b.values ++ [value] }, none)

/-- `MinimizingBuilder` (minimization.go, second part, lines 118-129). -/
structure MinimizingBuilder where
  keys : List ByteStr := []
  values : List Nat := []

/-- `MinimizingBuilder.Add` (minimization.go, lines 137-159): empty-key
check first, then duplicate scan over all accepted keys, then ordering
check against the last accepted key. -/
def MinimizingBuilder.Add (b : MinimizingBuilder) (key : ByteStr) (value : Nat) :
    MinimizingBuilder × Option AddError :=
  if key.length = 0 then (b, some .emptyKey)
  else if b.keys.contains key then (b, some .duplicateKey)
  else if 0 < b.keys.length ∧ bytesLe key (b.keys.getD (b.keys.length - 1) []) then
    (b, some .unorderedKey)
  else ({ keys := b.keys ++ [key], values := b.values ++ [value] }, none)

/-- C4 counterexample: the claim says every builder rejects a zero-length key
with an empty-key error, but `FSTBuilder.Add` has no empty-key check — on a
fresh builder, adding the zero-length key succeeds and stores it. -/
theorem C4_counterexample :
    (NewFSTBuilder.Add [] 0).2 = none ∧ (NewFSTBuilder.Add [] 0).1.keys = [[]] := by
  constructor <;> rfl

/-- C4 amended: the outcome of `Add` for the three builders, stated in the
claim's vocabulary.  The FSA builder matches the claim exactly (empty-key
error on zero length, duplicate error iff the key equals the last accepted
key, ordering error iff it is ≤ but not equal).  The FST and minimizing
builders raise the duplicate error when the key equals ANY previously
accepted key (not only the last); the minimizing builder rejects zero-length
keys first, and the FST builder has no empty-key check, so a zero-length key
is accepted on a fresh builder (and otherwise rejected as unordered, not as
empty). -/
theorem C4_add_contract :
    (∀ (b : SimpleFSABuilder) (key : ByteStr),
      b.Add key =
        (if key = [] then (b, some AddError.emptyKey)
         else match b.lastKey with
          | none => ({ keys := b.keys ++ [key], lastKey := some key }, none)
          | some last =>
            if key = last then (b, some AddError.duplicateKey)
            else if bytesLe key last then (b, some AddError.unorderedKey)
            else ({ keys := b.keys ++ [key], lastKey := some key }, none))) ∧
    (∀ (b : FSTBuilder) (key : ByteStr) (value : Nat),
      b.Add key value =
        (if key ∈ b.keys then (b, some AddError.duplicateKey)
         else match b.keys.getLast? with
          | none => ({ keys := b.keys ++ [key], values := b.values ++ [value] }, none)
          | some last =>
            if bytesLe key last then (b, some AddError.unorderedKey)
            else ({ keys := b.keys ++ [key], values := b.values ++ [value] }, none))) ∧
    (∀ (b : MinimizingBuilder) (key : ByteStr) (value : Nat),
      b.Add key value =
        (if key = [] then (b, some AddError.emptyKey)
         else if key ∈ b.keys then (b, some AddError.duplicateKey)
         else match b.keys.getLast? with
          | none => ({ keys := b.keys ++ [key], values := b.values ++ [value] }, none)
          | some last =>
            if bytesLe key last then (b, some AddError.unorderedKey)
            else ({ keys := b.keys ++ [key], values := b.values ++ [value] }, none))) := by
  have hlast : ∀ (keys : List ByteStr), keys ≠ [] →
      keys.getLast? = some (keys.getD (keys.length - 1) []) := by
    intro keys hne
    have hlen : 0 < keys.length := List.length_pos.mpr hne
    rw [List.getLast?_eq_getElem?, getD_eq_get keys (keys.length - 1) (by omega)]
    simp [List.getElem?_eq_getElem (show keys.length - 1 < keys.length by omega)]
  refine ⟨?_, ?_, ?_⟩
  · intro b key
    unfold SimpleFSABuilder.Add
    by_cases hk : key.length = 0
    · simp [hk, List.length_eq_zero.mp hk]
    · rw [if_neg hk, if_neg (by intro h; exact hk (by simp [h]))]
      cases hl : b.lastKey with
      | none => rfl
      | some last =>
        dsimp only
        by_cases he : key = last
        · subst he
          simp [bytesLe_refl]
        · by_cases hle : bytesLe key last
          · simp [he, hle]
          · simp [he, hle]
  · intro b key value
    unfold FSTBuilder.Add
    by_cases hc : b.keys.contains key
    · simp [hc, List.elem_iff.mp hc]
    · rw [if_neg hc, if_neg (fun h => hc (List.elem_iff.mpr h))]
      by_cases hne : b.keys = []
      · rw [hne]
        rw [if_neg (by simp)]
        rfl
      · rw [hlast b.keys hne]
        dsimp only
        by_cases hle : bytesLe key (b.keys.getD (b.keys.length - 1) [])
        · rw [if_pos ⟨List.length_pos.mpr hne, hle⟩, if_pos hle]
        · rw [if_neg (fun h => hle h.2), if_neg hle]
  · intro b key value
    unfold MinimizingBuilder.Add
    by_cases hk : key.length = 0
    · simp [hk, List.length_eq_zero.mp hk]
    · rw [if_neg hk, if_neg (show ¬ (key = []) from fun h => hk (by simp [h]))]
      by_cases hc : b.keys.contains key
      · simp [hc, List.elem_iff.mp hc]
      · rw [if_neg hc, if_neg (fun h => hc (List.elem_iff.mpr h))]
        by_cases hne : b.keys = []
        · rw [hne]
          rw [if_neg (by simp)]
          rfl
        · rw [hlast b.keys hne]
          dsimp only
          by_cases hle : bytesLe key (b.keys.getD (b.keys.length - 1) [])
          · rw [if_pos ⟨List.length_pos.mpr hne, hle⟩, if_pos hle]
          · rw [if_neg (fun h => hle h.2), if_neg hle]

/-- C8: when `Add` fails, the builder's accumulated keys (and values, for the
FST builder) and its recorded last key are exactly as before the call. -/
theorem C8_add_atomic :
    (∀ (b : SimpleFSABuilder) (key : ByteStr) (e : AddError),
      (b.Add key).2 = some e → (b.Add key).1 = b) ∧
    (∀ (b : FSTBuilder) (key : ByteStr) (value : Nat) (e : AddError),
      (b.Add key value).2 = some e → (b.Add key value).1 = b) := by
  constructor
  · intro b key e
    unfold SimpleFSABuilder.Add
    split
    · intro _; rfl
    · split
      · split
        · split <;> (intro _; rfl)
        · intro h; simp at h
      · intro h; simp at h
  · intro b key value e
    unfold FSTBuilder.Add
    split
    · intro _; rfl
    · split
      · intro _; rfl
      · intro h; simp at h

theorem C8_add_atomic_witness :
    ((SimpleFSABuilder.mk [[97]] (some [97])).Add [97]).2 = some AddError.duplicateKey ∧
    ((SimpleFSABuilder.mk [[97]] (some [97])).Add [97]).1 = SimpleFSABuilder.mk [[97]] (some [97]) :=
  ⟨by decide, C8_add_atomic.1 _ [97] AddError.duplicateKey (by decide)⟩

/-- `FST` (fst.go, lines 8-12): parallel sorted key and value lists. -/
structure FST where
  keys : List ByteStr
  values : List Nat

/-- `FSTBuilder.Build` (fst.go, lines 51-56); the Go error is always nil. -/
def FSTBuilder.Build (b : FSTBuilder) : FST := ⟨b.keys, b.values⟩

/-- `sort.SearchStrings(a, x)` = `sort.Search(len(a), func(i) { return a[i] >= x })`:
the least index whose key is not below `x` (`binLoop` instantiated with Go's
negated probe `!(a[h] >= x)`, that is `a[h] < x`). -/
def searchStrings (a : List ByteStr) (x : ByteStr) : Nat :=
  binLoop (fun h => bytesCompare (a.getD h []) x == .lt) (a.length + 1) 0 a.length

theorem searchStrings_spec {a : List ByteStr} (hs : a.Pairwise bytesLt) (x : ByteStr) :
    searchStrings a x ≤ a.length ∧
    (∀ i (h : i < a.length), i < searchStrings a x → bytesLt (a.get ⟨i, h⟩) x) ∧
    (∀ i (h : i < a.length), searchStrings a x ≤ i → ¬ bytesLt (a.get ⟨i, h⟩) x) := by
  have hdc : ∀ i j, i ≤ j → j < a.length →
      (fun h => bytesCompare (a.getD h []) x == Ordering.lt) j = true →
      (fun h => bytesCompare (a.getD h []) x == Ordering.lt) i = true := by
    intro i j hij hj hp
    have hi : i < a.length := by omega
    dsimp only at hp ⊢
    rw [getD_eq_get a j hj, beq_lt_iff] at hp
    rw [getD_eq_get a i hi, beq_lt_iff]
    rcases Nat.lt_or_ge i j with h | h
    · exact bytesLt_trans (pairwise_get hs hi hj h) hp
    · have : i = j := by omega
      subst this
      exact hp
  obtain ⟨h₁, h₂, h₃⟩ := binLoop_lowerBound _ a.length hdc
  refine ⟨h₁, ?_, ?_⟩
  · intro i h hi
    have := h₂ i hi
    rw [getD_eq_get a i h, beq_lt_iff] at this
    exact this
  · intro i h hi
    have := h₃ i hi h
    rw [getD_eq_get a i h, beq_lt_false_iff] at this
    exact this

/-- `FST.Get` (fst.go, lines 59-70): binary search plus equality check. -/
def FST.Get (fst : FST) (key : ByteStr) : Nat × Bool :=
  let i := searchStrings fst.keys key
  if i < fst.keys.length ∧ fst.keys.getD i [] = key then (fst.values.getD i 0, true)
  else (0, false)

/-- `FST.Contains` (fst.go, lines 73-76). -/
def FST.Contains (fst : FST) (key : ByteStr) : Bool := (fst.Get key).2

/-- `FSTIterator` (fst.go, lines 88-100). -/
structure FSTIterator where
  fst : FST
  index : Nat

def FST.Iterator (f : FST) : FSTIterator := ⟨f, 0⟩

/-- `FSTIterator.HasNext` (fst.go, lines 103-105). -/
def FSTIterator.HasNext (it : FSTIterator) : Bool := it.index < it.fst.keys.length

/-- `FSTIterator.Next` (fst.go, lines 108-118): the (key, value) pair — `none`
standing for Go's nil key — and the advanced iterator. -/
def FSTIterator.Next (it : FSTIterator) : (Option ByteStr × Nat) × FSTIterator :=
  if it.HasNext then
    ((some (it.fst.keys.getD it.index []), it.fst.values.getD it.index 0),
      { it with index := it.index + 1 })
  else ((none, 0), it)

/-- `FSTRangeIterator` (fst.go, lines 120-126). -/
structure FSTRangeIterator where
  fst : FST
  startIdx : Nat
  endIdx : Nat
  currentIdx : Nat

/-- `FST.RangeIterator` (fst.go, lines 129-142). -/
def FST.RangeIterator (f : FST) (startKey endKey : ByteStr) : FSTRangeIterator :=
  { fst := f
    startIdx := searchStrings f.keys startKey
    endIdx := searchStrings f.keys endKey
    currentIdx := searchStrings f.keys startKey }

/-- `FSTRangeIterator.HasNext` (fst.go, lines 145-147). -/
def FSTRangeIterator.HasNext (it : FSTRangeIterator) : Bool :=
  decide (it.currentIdx < it.endIdx) && decide (it.currentIdx < it.fst.keys.length)

theorem getDefault_eq_get {α : Type} (l : List α) (d : α) (i : Nat) (h : i < l.length) :
    l.getD i d = l.get ⟨i, h⟩ := by
  simp [List.getD_eq_getElem?_getD, List.getElem?_eq_getElem h]

/-- Association-list reading of a Go `map[string]uint64` (first matching
entry wins). -/
def alookup : List (ByteStr × Nat) → ByteStr → Option Nat
  | [], _ => none
  | (k, v) :: rest, key => if k = key then some v else alookup rest key

theorem alookup_zip_some {k : ByteStr} :
    ∀ (keys : List ByteStr) (values : List Nat), keys.length = values.length →
    ∀ (i : Nat) (hi : i < keys.length) (hv : i < values.length),
    keys.get ⟨i, hi⟩ = k →
    (∀ j (hj : j < keys.length), j < i → keys.get ⟨j, hj⟩ ≠ k) →
    alookup (keys.zip values) k = some (values.get ⟨i, hv⟩) := by
  intro keys
  induction keys with
  | nil => intro values _ i hi; simp at hi
  | cons x ks ih =>
    intro values hlen i hi hv hk hprev
    cases values with
    | nil => simp at hlen
    | cons v vs =>
      cases i with
      | zero =>
        simp only [List.get] at hk
        simp [List.zip_cons_cons, alookup, hk]
      | succ i' =>
        have hx : x ≠ k := by
          have := hprev 0 (by simp) (by omega)
          simpa using this
        simp only [List.zip_cons_cons, alookup, if_neg hx]
        exact ih vs (by simpa using hlen) i' (by simpa using hi) (by simpa using hv)
          (by simpa using hk)
          (fun j hj hji => by simpa using hprev (j + 1) (by simpa using hj) (by omega))

theorem alookup_zip_none {k : ByteStr} :
    ∀ (keys : List ByteStr) (values : List Nat),
    (∀ j (hj : j < keys.length), keys.get ⟨j, hj⟩ ≠ k) →
    alookup (keys.zip values) k = none := by
  intro keys
  induction keys with
  | nil => intro values _; simp [alookup]
  | cons x ks ih =>
    intro values hall
    cases values with
    | nil => simp [alookup]
    | cons v vs =>
      have hx : x ≠ k := by simpa using hall 0 (by simp)
      simp only [List.zip_cons_cons, alookup, if_neg hx]
      exact ih vs (fun j hj => by simpa using hall (j + 1) (by simpa using hj))

/-- `FST.Get` in terms of an association-list lookup over the zipped pairs,
for a well-formed FST (sorted distinct keys, aligned values). -/
theorem FST.Get_eq_alookup {f : FST} (hs : f.keys.Pairwise bytesLt)
    (hlen : f.keys.length = f.values.length) (k : ByteStr) :
    f.Get k = ((alookup (f.keys.zip f.values) k).getD 0,
               (alookup (f.keys.zip f.values) k).isSome) := by
  obtain ⟨hlb, hlow, hhigh⟩ := searchStrings_spec hs k
  unfold FST.Get
  by_cases hcase : searchStrings f.keys k < f.keys.length ∧
      f.keys.getD (searchStrings f.keys k) [] = k
  · obtain ⟨hlt, heq⟩ := hcase
    rw [getD_eq_get f.keys _ hlt] at heq
    have halk : alookup (f.keys.zip f.values) k
        = some (f.values.get ⟨searchStrings f.keys k, by omega⟩) :=
      alookup_zip_some f.keys f.values hlen _ hlt (by omega) heq
        (fun j hj hji => bytesLt_ne (heq ▸ hlow j hj hji))
    rw [if_pos ⟨hlt, by rw [getD_eq_get f.keys _ hlt]; exact heq⟩, halk]
    rw [getDefault_eq_get f.values 0 _ (by omega)]
    rfl
  · have halk : alookup (f.keys.zip f.values) k = none := by
      refine alookup_zip_none f.keys f.values ?_
      intro j hj
      rcases Nat.lt_or_ge j (searchStrings f.keys k) with hlt | hge
      · exact bytesLt_ne (hlow j hj hlt)
      · rcases Nat.lt_or_ge j f.keys.length with _ | _
        · -- j ≥ lb: the probed element is not below k and (for j > lb) above it
          intro hjk
          rcases Nat.eq_or_lt_of_le hge with heq | hlt'
          · exact hcase ⟨by omega, by rw [heq, getD_eq_get f.keys j hj]; exact hjk⟩
          · have hlbl : searchStrings f.keys k < f.keys.length := by omega
            have h1 : ¬ bytesLt (f.keys.get ⟨searchStrings f.keys k, hlbl⟩) k :=
              hhigh _ hlbl (le_refl _)
            have h2 : bytesLt (f.keys.get ⟨searchStrings f.keys k, hlbl⟩)
                (f.keys.get ⟨j, hj⟩) := pairwise_get hs hlbl hj hlt'
            rw [hjk] at h2
            exact h1 h2
        · omega
    rw [if_neg hcase, halk]
    rfl

/-- First-occurrence-wins insertion of `FSTUnion`'s key-value map
(fst.go, lines 219-225). -/
def insertAbsent (m : List (ByteStr × Nat)) (k : ByteStr) (v : Nat) : List (ByteStr × Nat) :=
  if (alookup m k).isSome then m else m ++ [(k, v)]

/-- The `keyValueMap` of `FSTUnion` (fst.go, lines 216-225): every key-value
pair of every operand, in operand order, first occurrence winning.  (The Go
map's nondeterministic iteration order is immaterial: the map is only used
for lookups and for its sorted key list.) -/
def unionMap (fsts : List FST) : List (ByteStr × Nat) :=
  fsts.foldl
    (fun m f => (f.keys.zip f.values).foldl (fun m kv => insertAbsent m kv.1 kv.2) m) []

/-- The build loop of `FSTUnion` (fst.go, lines 235-242), aborting at the
first error. -/
def addLoop (v : ByteStr → Nat) (ks : List ByteStr) (acc : FSTBuilder × Option AddError) :
    FSTBuilder × Option AddError :=
  ks.foldl (fun acc key =>
    match acc with
    | (b, some e) => (b, some e)
    | (b, none) => b.Add key (v key)) acc

/-- `FSTUnion` (fst.go, lines 211-245); `none` is Go's `(nil, err)` return. -/
def FSTUnion (fsts : List FST) : Option FST :=
  if fsts.isEmpty then some NewFSTBuilder.Build
  else
    match addLoop (fun key => (alookup (unionMap fsts) key).getD 0)
        (sortStrings ((unionMap fsts).map Prod.fst)) (NewFSTBuilder, none) with
    | (b, none) => some b.Build
    | (_, some _) => none

/-- The claim's reading: the value attached to `k` by the earliest-listed
operand that contains `k`. -/
def firstGet : List FST → ByteStr → Option Nat
  | [], _ => none
  | f :: rest, k => if (f.Get k).2 then some (f.Get k).1 else firstGet rest k

theorem alookup_append (m₁ m₂ : List (ByteStr × Nat)) (k : ByteStr) :
    alookup (m₁ ++ m₂) k =
      (match alookup m₁ k with | some v => some v | none => alookup m₂ k) := by
  induction m₁ with
  | nil => simp [alookup]
  | cons p rest ih =>
    by_cases h : p.1 = k
    · simp [alookup, h]
    · simp [alookup, h, ih]

theorem alookup_insertFold :
    ∀ (pairs : List (ByteStr × Nat)) (m : List (ByteStr × Nat)) (k : ByteStr),
    alookup (pairs.foldl (fun m kv => insertAbsent m kv.1 kv.2) m) k =
      (match alookup m k with | some v => some v | none => alookup pairs k) := by
  intro pairs
  induction pairs with
  | nil =>
    intro m k
    cases h : alookup m k <;> simp [alookup, h]
  | cons p rest ih =>
    intro m k
    simp only [List.foldl_cons]
    rw [ih]
    unfold insertAbsent
    by_cases hp : (alookup m p.1).isSome
    · rw [if_pos hp]
      cases h : alookup m k with
      | some v => simp
      | none =>
        have hne : p.1 ≠ k := by
          intro hcontra
          rw [hcontra, h] at hp
          simp at hp
        simp [alookup, hne]
    · rw [if_neg hp]
      rw [alookup_append]
      cases h : alookup m k with
      | some v => simp
      | none =>
        by_cases hpk : p.1 = k
        · simp [alookup, hpk]
        · simp [alookup, hpk]

theorem alookup_none_iff (m : List (ByteStr × Nat)) (k : ByteStr) :
    alookup m k = none ↔ k ∉ m.map Prod.fst := by
  induction m with
  | nil => simp [alookup]
  | cons p rest ih =>
    by_cases h : p.1 = k
    · simp [alookup, h]
    · simp only [alookup, if_neg h, List.map_cons, List.mem_cons]
      rw [ih]
      push_neg
      constructor
      · intro hn
        exact ⟨fun h1 => absurd h1.symm h, hn⟩
      · intro hn
        exact hn.2

theorem unionMap_nodup (fsts : List FST) : ((unionMap fsts).map Prod.fst).Nodup := by
  have step : ∀ (pairs : List (ByteStr × Nat)) (m : List (ByteStr × Nat)),
      (m.map Prod.fst).Nodup →
      ((pairs.foldl (fun m kv => insertAbsent m kv.1 kv.2) m).map Prod.fst).Nodup := by
    intro pairs
    induction pairs with
    | nil => intro m h; exact h
    | cons p rest ih =>
      intro m h
      simp only [List.foldl_cons]
      refine ih _ ?_
      unfold insertAbsent
      by_cases hp : (alookup m p.1).isSome
      · rw [if_pos hp]; exact h
      · rw [if_neg hp]
        have : alookup m p.1 = none := by
          cases hm : alookup m p.1
          · rfl
          · rw [hm] at hp; simp at hp
        rw [List.map_append]
        simp only [List.map_cons, List.map_nil]
        refine List.nodup_append.mpr ⟨h, List.nodup_singleton _, ?_⟩
        intro a ha hb
        rw [List.mem_singleton] at hb
        subst hb
        exact (alookup_none_iff m p.1).mp this ha
  have : ∀ (l : List FST) (m : List (ByteStr × Nat)), (m.map Prod.fst).Nodup →
      ((l.foldl (fun m f => (f.keys.zip f.values).foldl
          (fun m kv => insertAbsent m kv.1 kv.2) m) m).map Prod.fst).Nodup := by
    intro l
    induction l with
    | nil => intro m h; exact h
    | cons f rest ih => intro m h; exact ih _ (step _ m h)
  exact this fsts [] (by simp)

theorem alookup_unionMap {fsts : List FST}
    (hwf : ∀ f ∈ fsts, f.keys.Pairwise bytesLt ∧ f.keys.length = f.values.length)
    (k : ByteStr) : alookup (unionMap fsts) k = firstGet fsts k := by
  have main : ∀ (l : List FST), (∀ f ∈ l, f.keys.Pairwise bytesLt ∧ f.keys.length = f.values.length) →
      ∀ (m : List (ByteStr × Nat)),
      alookup (l.foldl (fun m f => (f.keys.zip f.values).foldl
          (fun m kv => insertAbsent m kv.1 kv.2) m) m) k =
        (match alookup m k with | some v => some v | none => firstGet l k) := by
    intro l
    induction l with
    | nil =>
      intro _ m
      cases h : alookup m k <;> simp [firstGet, h]
    | cons f rest ih =>
      intro hwf' m
      simp only [List.foldl_cons]
      rw [ih (fun g hg => hwf' g (List.mem_cons_of_mem f hg))]
      rw [alookup_insertFold]
      have hget := FST.Get_eq_alookup (hwf' f (by simp)).1 (hwf' f (by simp)).2 k
      cases hm : alookup m k with
      | some v => simp
      | none =>
        cases hz : alookup (f.keys.zip f.values) k with
        | some v =>
          simp only [firstGet]
          rw [hget, hz]
          simp
        | none =>
          simp only [firstGet]
          rw [hget, hz]
          simp
  exact (main fsts hwf []).trans (by simp [alookup])

theorem addLoop_sorted (v : ByteStr → Nat) :
    ∀ (ks : List ByteStr) (b : FSTBuilder), (b.keys ++ ks).Pairwise bytesLt →
    addLoop v ks (b, none) =
      ({ keys := b.keys ++ ks, values := b.values ++ ks.map v }, none) := by
  intro ks
  induction ks with
  | nil => intro b _; simp [addLoop]
  | cons k rest ih =>
    intro b hs
    have hsplit := List.pairwise_append.mp hs
    have hbk : ∀ x ∈ b.keys, bytesLt x k := fun x hx => hsplit.2.2 x hx k (by simp)
    have hadd : b.Add k (v k) = ({ keys := b.keys ++ [k], values := b.values ++ [v k] }, none) := by
      unfold FSTBuilder.Add
      rw [if_neg (by
        intro hc
        exact bytesLt_irrefl k (by
          have := hbk k (List.elem_iff.mp hc)
          exact this))]
      rw [if_neg (by
        intro hc
        obtain ⟨hlen, hle⟩ := hc
        have hmem : b.keys.getD (b.keys.length - 1) [] ∈ b.keys := by
          rw [getD_eq_get b.keys (b.keys.length - 1) (by omega)]
          exact List.get_mem _ _ _
        exact bytesLt_irrefl k (bytesLt_of_le_of_lt hle (hbk _ hmem)))]
    show addLoop v rest (b.Add k (v k)) = _
    rw [hadd]
    have hs' : (({ keys := b.keys ++ [k], values := b.values ++ [v k] } : FSTBuilder).keys
        ++ rest).Pairwise bytesLt := by
      simp only [List.append_assoc, List.singleton_append]
      exact hs
    rw [ih _ hs']
    simp [List.append_assoc]

theorem alookup_zip_map (vf : ByteStr → Nat) :
    ∀ (ks : List ByteStr) (k : ByteStr),
    alookup (ks.zip (ks.map vf)) k = if k ∈ ks then some (vf k) else none := by
  intro ks
  induction ks with
  | nil => intro k; simp [alookup]
  | cons x rest ih =>
    intro k
    simp only [List.map_cons, List.zip_cons_cons, alookup]
    by_cases h : x = k
    · subst h
      simp
    · have hz : List.zipWith Prod.mk rest (List.map vf rest) = rest.zip (List.map vf rest) := rfl
      rw [if_neg h, hz, ih k]
      by_cases hk : k ∈ rest
      · simp [hk]
      · simp only [if_neg hk, List.mem_cons]
        rw [if_neg (by intro hor; rcases hor with h1 | h1; exact h h1.symm; exact hk h1)]

/-- C6: for well-formed operand FSTs, `FSTUnion` succeeds and `Get(k)` on the
union returns the value of the earliest-listed operand containing `k`. -/
theorem C6_union_first_value {fsts : List FST}
    (hwf : ∀ f ∈ fsts, f.keys.Pairwise bytesLt ∧ f.keys.length = f.values.length)
    (k : ByteStr) (hpresent : (firstGet fsts k).isSome = true) :
    ∃ u, FSTUnion fsts = some u ∧ u.Get k = ((firstGet fsts k).getD 0, true) := by
  have hne : fsts ≠ [] := by
    intro h
    subst h
    simp [firstGet] at hpresent
  unfold FSTUnion
  rw [if_neg (by simp [List.isEmpty_iff, hne])]
  have hnd : ((unionMap fsts).map Prod.fst).Nodup := unionMap_nodup fsts
  have hsorted : (sortStrings ((unionMap fsts).map Prod.fst)).Pairwise bytesLt :=
    sortStrings_pairwise_lt hnd
  have hloop : addLoop (fun key => (alookup (unionMap fsts) key).getD 0)
      (sortStrings ((unionMap fsts).map Prod.fst)) (NewFSTBuilder, none) =
      ({ keys := sortStrings ((unionMap fsts).map Prod.fst)
         values := (sortStrings ((unionMap fsts).map Prod.fst)).map
           (fun key => (alookup (unionMap fsts) key).getD 0) }, none) := by
    rw [addLoop_sorted _ _ NewFSTBuilder (by simpa [NewFSTBuilder] using hsorted)]
    simp [NewFSTBuilder]
  rw [hloop]
  refine ⟨_, rfl, ?_⟩
  have hbuild : FSTBuilder.Build
      { keys := sortStrings ((unionMap fsts).map Prod.fst)
        values := (sortStrings ((unionMap fsts).map Prod.fst)).map
          (fun key => (alookup (unionMap fsts) key).getD 0) } =
      FST.mk (sortStrings ((unionMap fsts).map Prod.fst))
        ((sortStrings ((unionMap fsts).map Prod.fst)).map
          (fun key => (alookup (unionMap fsts) key).getD 0)) := rfl
  rw [hbuild]
  rw [FST.Get_eq_alookup hsorted (by simp) k]
  rw [alookup_zip_map]
  have hfg : alookup (unionMap fsts) k = firstGet fsts k := alookup_unionMap hwf k
  have hmem : k ∈ sortStrings ((unionMap fsts).map Prod.fst) := by
    rw [(sortStrings_perm _).mem_iff]
    by_contra hnot
    rw [← alookup_none_iff] at hnot
    rw [hnot] at hfg
    rw [← hfg] at hpresent
    simp at hpresent
  rw [if_pos hmem, hfg]
  simp

theorem C6_union_first_value_witness :
    (∀ f ∈ [FST.mk [[97]] [1], FST.mk [[97], [98]] [2, 3]],
      f.keys.Pairwise bytesLt ∧ f.keys.length = f.values.length) ∧
    (firstGet [FST.mk [[97]] [1], FST.mk [[97], [98]] [2, 3]] [97]).isSome = true ∧
    (∃ u, FSTUnion [FST.mk [[97]] [1], FST.mk [[97], [98]] [2, 3]] = some u ∧
      u.Get [97] = ((firstGet [FST.mk [[97]] [1], FST.mk [[97], [98]] [2, 3]] [97]).getD 0, true)) :=
  ⟨by decide, by decide,
    C6_union_first_value (by decide) [97] (by decide)⟩

/-- `BoundedLRUCache` (part_008, lines 91-113): `lru` holds the entries front
to back; the `cache` hash map always indexes exactly the entries of `lru`,
so the list is the whole state.  Hashes are the Go `uint64` keys and the
stored `*FrozenState` pointers are opaque, both modelled as `Nat`.  The
`sync.RWMutex` only serializes access and has no observable effect on the
single-threaded semantics.  `capacity` is a Go `int`. -/
structure BoundedLRUCache where
  capacity : Int
  lru : List (Nat × Nat)

/-- `NewBoundedLRUCache` (part_008, lines 106-112). -/
def NewBoundedLRUCache (capacity : Int) : BoundedLRUCache := ⟨capacity, []⟩

/-- The `cache[hash]` map lookup: the unique `lru` entry with this hash. -/
def lruFind : List (Nat × Nat) → Nat → Option (Nat × Nat)
  | [], _ => none
  | e :: rest, h => if e.1 = h then some e else lruFind rest h

/-- `BoundedLRUCache.Get` (part_008, lines 115-129): `MoveToFront` on a hit.
Returns Go's `(state, ok)` and the updated cache. -/
def BoundedLRUCache.Get (c : BoundedLRUCache) (hash : Nat) :
    (Option Nat × Bool) × BoundedLRUCache :=
  match lruFind c.lru hash with
  | none => ((none, false), c)
  | some e =>
    ((some e.2, true), { c with lru := e :: c.lru.eraseP (fun x => x.1 == hash) })

/-- `BoundedLRUCache.Put` (part_008, lines 132-154): move-to-front and update
on a hit; otherwise push to the front and evict the back entry when the
length exceeds the capacity. -/
def BoundedLRUCache.Put (c : BoundedLRUCache) (hash state : Nat) : BoundedLRUCache :=
  match lruFind c.lru hash with
  | some e => { c with lru := (e.1, state) :: c.lru.eraseP (fun x => x.1 == hash) }
  | none =>
    if (((hash, state) :: c.lru).length : Int) > c.capacity then
      { c with lru := (((hash, state) :: c.lru)).dropLast }
    else { c with lru := (hash, state) :: c.lru }

/-- `BoundedLRUCache.Size` (part_008, lines 157-161). -/
def BoundedLRUCache.Size (c : BoundedLRUCache) : Nat := c.lru.length

/-- A finite program against one cache: the claim quantifies over all
`Get`/`Put` sequences. -/
inductive CacheOp where
  | get (hash : Nat)
  | put (hash state : Nat)

def BoundedLRUCache.applyOp (c : BoundedLRUCache) : CacheOp → BoundedLRUCache
  | .get h => (c.Get h).2
  | .put h s => c.Put h s

def BoundedLRUCache.run (c : BoundedLRUCache) (ops : List CacheOp) : BoundedLRUCache :=
  ops.foldl BoundedLRUCache.applyOp c

theorem lruFind_mem {l : List (Nat × Nat)} {h : Nat} {e : Nat × Nat}
    (hf : lruFind l h = some e) : e ∈ l ∧ e.1 = h := by
  induction l with
  | nil => simp [lruFind] at hf
  | cons x rest ih =>
    by_cases hx : x.1 = h
    · simp only [lruFind, if_pos hx] at hf
      cases hf
      exact ⟨by simp, hx⟩
    · simp only [lruFind, if_neg hx] at hf
      obtain ⟨hm, hh⟩ := ih hf
      exact ⟨by simp [hm], hh⟩

theorem BoundedLRUCache.applyOp_size {c : BoundedLRUCache} {op : CacheOp}
    (hcap : 0 ≤ c.capacity) (hsize : (c.Size : Int) ≤ c.capacity) :
    ((c.applyOp op).Size : Int) ≤ (c.applyOp op).capacity ∧ (c.applyOp op).capacity = c.capacity := by
  cases op with
  | get h =>
    simp only [applyOp, BoundedLRUCache.Get]
    cases hf : lruFind c.lru h with
    | none => exact ⟨hsize, rfl⟩
    | some e =>
      obtain ⟨hm, hh⟩ := lruFind_mem hf
      refine ⟨?_, rfl⟩
      simp only [Size, List.length_cons]
      rw [List.length_eraseP_of_mem hm (by simp [hh])]
      have : 0 < c.lru.length := List.length_pos.mpr (by intro hnil; rw [hnil] at hm; simp at hm)
      simp only [Size] at hsize
      omega
  | put h s =>
    simp only [applyOp, BoundedLRUCache.Put]
    cases hf : lruFind c.lru h with
    | some e =>
      obtain ⟨hm, hh⟩ := lruFind_mem hf
      refine ⟨?_, rfl⟩
      simp only [Size, List.length_cons]
      rw [List.length_eraseP_of_mem hm (by simp [hh])]
      have : 0 < c.lru.length := List.length_pos.mpr (by intro hnil; rw [hnil] at hm; simp at hm)
      simp only [Size] at hsize
      omega
    | none =>
      by_cases hover : ((((h, s) :: c.lru).length : Int) > c.capacity)
      · rw [if_pos hover]
        refine ⟨?_, rfl⟩
        simp only [Size, List.length_dropLast, List.length_cons] at *
        omega
      · rw [if_neg hover]
        refine ⟨?_, rfl⟩
        simp only [Size, List.length_cons] at *
        omega

/-- C7: for every capacity C ≥ 0 and every finite sequence of `Get`/`Put`
operations on a cache created by `NewBoundedLRUCache(C)`, `Size()` never
exceeds C. -/
theorem C7_lru_bounded (C : Int) (hC : 0 ≤ C) (ops : List CacheOp) :
    (((NewBoundedLRUCache C).run ops).Size : Int) ≤ C := by
  suffices h : ∀ (ops : List CacheOp) (c : BoundedLRUCache), 0 ≤ c.capacity →
      (c.Size : Int) ≤ c.capacity →
      ((c.run ops).Size : Int) ≤ (c.run ops).capacity ∧ (c.run ops).capacity = c.capacity by
    have := h ops (NewBoundedLRUCache C) hC
      (by simpa [NewBoundedLRUCache, BoundedLRUCache.Size] using hC)
    have h2 : (((NewBoundedLRUCache C).run ops)).capacity = C := this.2.trans rfl
    have h3 := this.1
    omega
  intro ops
  induction ops with
  | nil => intro c h1 h2; exact ⟨h2, rfl⟩
  | cons op rest ih =>
    intro c h1 h2
    have hstep := @BoundedLRUCache.applyOp_size c op h1 h2
    have := ih (c.applyOp op) (hstep.2 ▸ h1) hstep.1
    simp only [BoundedLRUCache.run, List.foldl_cons] at *
    exact ⟨this.1, this.2.trans hstep.2⟩

theorem C7_lru_bounded_witness :
    (0 : Int) ≤ 1 ∧
    ((((NewBoundedLRUCache 1).run [CacheOp.put 5 1, CacheOp.put 6 2, CacheOp.get 5]).Size : Int) ≤ 1) :=
  ⟨by decide, C7_lru_bounded 1 (by decide) [CacheOp.put 5 1, CacheOp.put 6 2, CacheOp.get 5]⟩

/-- C10: iteration at or past exhaustion is total and error-free:
`FSTIterator.Next` on an exhausted iterator returns a nil key (`none`) and
zero value, leaving the iterator unchanged, and `SimpleFSAIterator.Key` on a
cursor outside the key list returns a nil key. -/
theorem C10_exhausted_safe :
    (∀ it : FSTIterator, it.HasNext = false → it.Next = ((none, 0), it)) ∧
    (∀ it : SimpleFSAIterator, (it.pos < 0 ∨ (it.keys.length : Int) ≤ it.pos) →
      it.Key = none) := by
  constructor
  · intro it h
    simp [FSTIterator.Next, h]
  · intro it h
    unfold SimpleFSAIterator.Key
    rw [if_neg]
    intro hc
    rcases h with h | h
    · have := hc.1; omega
    · have := hc.2; omega

theorem C10_exhausted_safe_witness :
    (FSTIterator.mk (FST.mk [[97]] [1]) 1).HasNext = false ∧
    (FSTIterator.mk (FST.mk [[97]] [1]) 1).Next = ((none, 0), FSTIterator.mk (FST.mk [[97]] [1]) 1) ∧
    (SimpleFSAIterator.mk [[97]] (-1) none none none).Key = none :=
  ⟨by decide, C10_exhausted_safe.1 _ (by decide),
    C10_exhausted_safe.2 _ (Or.inl (by decide))⟩

/-- `LevenshteinAutomaton` (levenshtein.go, lines 14-20).  The cell struct
`LevenshteinState` carries `(Position, Errors, IsValid)`, but every written
cell's `Position`/`Errors` equal its table indices, so the table keeps just
the `IsValid` flag. -/
structure LevenshteinAutomaton where
  pattern : List Nat
  maxDistance : Nat
  states : List (List Bool)

/-- A `make([][]LevenshteinState, rows)` table of invalid cells. -/
def mkFalseTable (rows cols : Nat) : List (List Bool) :=
  List.replicate rows (List.replicate cols false)

/-- `states[i][j] = LevenshteinState{..., IsValid: true}` — all call sites
are bounds-checked in the Go code. -/
def setCell (t : List (List Bool)) (i j : Nat) : List (List Bool) :=
  t.set i ((t.getD i []).set j true)

def getCell (t : List (List Bool)) (i j : Nat) : Bool :=
  (t.getD i []).getD j false

/-- `NewLevenshteinAutomaton` (levenshtein.go, lines 23-46). -/
def NewLevenshteinAutomaton (pattern : List Nat) (maxDistance : Nat) : LevenshteinAutomaton :=
  { pattern := pattern
    maxDistance := maxDistance
    states := (List.range (maxDistance + 1)).foldl (fun t e => setCell t e e)
      (mkFalseTable (pattern.length + maxDistance + 1) (maxDistance + 1)) }

/-- `LevenshteinAutomaton.Step` (levenshtein.go, lines 49-106): for every
valid cell, the match/substitution, insertion and deletion successors,
written into a fresh table. -/
def LevenshteinAutomaton.Step (la : LevenshteinAutomaton) (char : Nat) : LevenshteinAutomaton :=
  let patternLen := la.pattern.length
  let rows := patternLen + la.maxDistance + 1
  let newStates := (List.range la.states.length).foldl (fun t pos =>
    (List.range (la.maxDistance + 1)).foldl (fun t err =>
      if getCell la.states pos err then
        -- match / substitution transition
        let t := if pos < patternLen then
            (let nextErr := if la.pattern.getD pos 0 ≠ char then err + 1 else err
             if nextErr ≤ la.maxDistance ∧ pos + 1 < rows then setCell t (pos + 1) nextErr else t)
          else t
        -- insertion (advance input, keep pattern position)
        let t := if err + 1 ≤ la.maxDistance ∧ pos < rows then setCell t pos (err + 1) else t
        -- deletion (advance pattern position)
        if pos < patternLen ∧ err + 1 ≤ la.maxDistance ∧ pos + 1 < rows then
          setCell t (pos + 1) (err + 1) else t
      else t) t) (mkFalseTable rows (la.maxDistance + 1))
  { la with states := newStates }

/-- `LevenshteinAutomaton.IsMatch` (levenshtein.go, lines 109-128). -/
def LevenshteinAutomaton.IsMatch (la : LevenshteinAutomaton) : Bool :=
  let patternLen := la.pattern.length
  (List.range (la.maxDistance + 1)).any (fun err =>
    (decide (patternLen < la.states.length) && getCell la.states patternLen err) ||
    ((List.range' patternLen (la.states.length - patternLen)).any (fun pos =>
      decide (pos ≤ patternLen + err) && getCell la.states pos err)))

/-- `LevenshteinAutomaton.CanMatch` (levenshtein.go, lines 131-141). -/
def LevenshteinAutomaton.CanMatch (la : LevenshteinAutomaton) : Bool :=
  la.states.any (fun row => row.any id)

/-- `hasPrefix` (levenshtein.go, lines 209-211). -/
def goHasPfx (s p : List Nat) : Bool :=
  decide (p.length ≤ s.length) && (s.take p.length == p)

/-- `fuzzySearchRecursive` (levenshtein.go, lines 168-206).  Each recursive
call extends `prefix` by one byte of an existing key whose length exceeds
the prefix, so the recursion depth is bounded by the longest key; `fuel`
carries that bound (callers pass `longest key + 1`, making the zero-fuel
branch unreachable).  The inner for-loop with `break`/`continue` and the
`tried` byte set is the fold; its Boolean component is the break flag. -/
def fuzzySearchRecursive (keys : List (List Nat)) :
    Nat → List Nat → Nat → LevenshteinAutomaton → List (List Nat) → List (List Nat)
  | 0, _, _, _, results => results
  | fuel + 1, pfx, index, automaton, results =>
    let results :=
      if index < keys.length ∧ keys.getD index [] = pfx ∧ automaton.IsMatch then
        results ++ [pfx]
      else results
    if ¬ automaton.CanMatch then results
    else
      (((List.range' index (keys.length - index)).foldl (fun acc i =>
        match acc with
        | (tried, results, true) => (tried, results, true)
        | (tried, results, false) =>
          let key := keys.getD i []
          if key.length ≤ pfx.length ∨ ¬ goHasPfx key pfx then
            if 0 < pfx.length ∧ ¬ goHasPfx key pfx.dropLast then (tried, results, true)
            else (tried, results, false)
          else
            let nextChar := key.getD pfx.length 0
            if tried.contains nextChar then (tried, results, false)
            else
              let nextAutomaton := automaton.Step nextChar
              if nextAutomaton.CanMatch then
                (nextChar :: tried,
                  fuzzySearchRecursive keys fuel (pfx ++ [nextChar]) i nextAutomaton results,
                  false)
              else (nextChar :: tried, results, false)
        ) ([], results, false))).2.1

/-- `FuzzySearch` (levenshtein.go, lines 144-165), `*SimpleFSA` branch:
recursive walk of the sorted key list alongside the automaton, results
sorted at the end. -/
def FuzzySearch (keys : List (List Nat)) (pattern : List Nat) (maxDistance : Nat) :
    List (List Nat) :=
  let automaton := NewLevenshteinAutomaton pattern maxDistance
  let results := fuzzySearchRecursive keys ((keys.map List.length).foldr max 0 + 1)
    [] 0 automaton []
  sortStrings results

/-- `min` (levenshtein.go, lines 251-259). -/
def min3 (a b c : Nat) : Nat :=
  if a ≤ b ∧ a ≤ c then a else if b ≤ c then b else c

/-- `computeLevenshteinDistance` (levenshtein.go, lines 214-248): the DP
matrix, built row by row (each fold state is the previous/current row). -/
def computeLevenshteinDistance (s1 s2 : List Nat) : Nat :=
  let len1 := s1.length
  let len2 := s2.length
  let row0 := List.range (len2 + 1)
  let lastRow := (List.range' 1 len1).foldl (fun prev i =>
    (List.range' 1 len2).foldl (fun cur j =>
      let cost := if s1.getD (i - 1) 0 ≠ s2.getD (j - 1) 0 then 1 else 0
      cur ++ [min3 ((prev.getD j 0) + 1) ((cur.getD (j - 1) 0) + 1) ((prev.getD (j - 1) 0) + cost)]
    ) [i]) row0
  lastRow.getD len2 0

/-- `FuzzySearch`'s fallback branch for non-`*SimpleFSA` implementations
(levenshtein.go, lines 151-161): keep exactly the keys within the DP edit
distance. -/
def fuzzySearchGeneric (keys : List (List Nat)) (pattern : List Nat) (maxDistance : Nat) :
    List (List Nat) :=
  sortStrings (keys.filter (fun key => computeLevenshteinDistance key pattern ≤ maxDistance))

/-- C1 (code bug): over K = {"a"} with pattern "ax" and maxDistance 1, the
`SimpleFSA` branch of `FuzzySearch` returns nothing although
editDistance("ax", "a") = 1 ≤ 1 — while the fallback branch of the very
same function (which filters by `computeLevenshteinDistance`) returns
["a"].  The automaton's `Step` writes the deletion successor into the
next-input table (consuming a byte) and `IsMatch` only inspects positions
past the pattern end that are never reached, so pending pattern-deletions
are lost. -/
theorem C1_fuzzy_search_bug :
    FuzzySearch [[97]] [97, 120] 1 = [] ∧
    computeLevenshteinDistance [97, 120] [97] = 1 ∧
    fuzzySearchGeneric [[97]] [97, 120] 1 = [[97]] := by
  refine ⟨by decide, by decide, by decide⟩

theorem bytesCompare_nil_right (k : ByteStr) : bytesCompare k [] ≠ Ordering.lt := by
  cases k <;> simp [bytesCompare]

/-- `QueryOptions` (regex.go, lines 196-204); the Go string fields are byte
strings, the Go `int` fields are exercised only at non-negative values. -/
structure QueryOptions where
  pfx : ByteStr := []
  startKey : ByteStr := []
  endKey : ByteStr := []
  regexPattern : ByteStr := []
  fuzzyPattern : ByteStr := []
  fuzzyMaxDistance : Nat := 0
  limit : Nat := 0

/-- The `for iterator.Next() { candidates = append(candidates, string(key)) }`
loops of `ComplexQuery.Execute` (regex.go, lines 129-147).  Every successful
`Next` advances the cursor, so `keys.length + 1` iterations suffice; fuel
makes the loop structural. -/
def collectKeys : Nat → SimpleFSAIterator → List ByteStr
  | 0, _ => []
  | fuel + 1, it =>
    match it.Next with
    | (true, it') => (it'.Key.getD []) :: collectKeys fuel it'
    | (false, _) => []

/-- `ComplexQuery.Execute` (regex.go, lines 125-193) over a `SimpleFSA`.
The Go `regexp` engine is external to this repository; the compiled matcher
is abstracted as the `compileRegex` parameter (`none` = compile failure,
making `Execute` return the error).  With an empty `RegexPattern` the
parameter is never consulted.  Returns the `QueryResult` keys and count. -/
def ComplexQueryExecute (compileRegex : ByteStr → Option (ByteStr → Bool))
    (fsa : SimpleFSA) (options : QueryOptions) : Option (List ByteStr × Nat) :=
  let candidates :=
    if options.pfx ≠ [] then
      collectKeys (fsa.keys.length + 1) (fsa.PfxIterator options.pfx)
    else if options.startKey ≠ [] ∨ options.endKey ≠ [] then
      collectKeys (fsa.keys.length + 1) (fsa.RangeIterator options.startKey options.endKey)
    else
      collectKeys (fsa.keys.length + 1) fsa.Iterator
  let rstep : Option (List ByteStr) :=
    if options.regexPattern ≠ [] then
      match compileRegex options.regexPattern with
      | none => none
      | some matcher => some (candidates.filter matcher)
    else some candidates
  match rstep with
  | none => none
  | some candidates =>
    let candidates :=
      if options.fuzzyPattern ≠ [] then
        (FuzzySearch fsa.keys options.fuzzyPattern options.fuzzyMaxDistance).filter
          (fun r => candidates.contains r)
      else candidates
    let candidates :=
      if 0 < options.limit ∧ options.limit < candidates.length then
        candidates.take options.limit
      else candidates
    some (candidates, candidates.length)

/-- C9: an empty end key is an exclusive upper bound that every key reaches:
a `SimpleFSAIterator` whose non-nil `end` is the empty byte string never
yields a key, an `FST.RangeIterator` with empty end key has no next element,
and a composite query that sets only `StartKey` (leaving `EndKey` empty and
no other filter) returns an empty result regardless of the corpus, start
key and limit. -/
theorem C9_empty_end_key :
    (∀ (keys : List ByteStr) (pfx startK : Option ByteStr) (fuel pos : Nat),
      (nextLoop keys pfx startK (some []) fuel pos).1 = false) ∧
    (∀ (f : FST) (startKey : ByteStr), (f.RangeIterator startKey []).HasNext = false) ∧
    (∀ (compileRegex : ByteStr → Option (ByteStr → Bool)) (fsa : SimpleFSA)
        (s : ByteStr) (d lim : Nat), s ≠ [] →
      ComplexQueryExecute compileRegex fsa
        { pfx := [], startKey := s, endKey := [], regexPattern := [],
          fuzzyPattern := [], fuzzyMaxDistance := d, limit := lim } = some ([], 0)) := by
  have part1 : ∀ (keys : List ByteStr) (pfx startK : Option ByteStr) (fuel pos : Nat),
      (nextLoop keys pfx startK (some []) fuel pos).1 = false := by
    intro keys pfx startK fuel
    induction fuel with
    | zero => intro pos; rfl
    | succ fuel ih =>
      intro pos
      simp only [nextLoop]
      by_cases h1 : pos < keys.length
      · rw [if_pos h1]
        by_cases h2 : (pfx.isSome && !((pfx.getD []).isPrefixOf (keys.getD pos []))) = true
        · rw [if_pos h2]
          by_cases h3 : (bytesCompare (keys.getD pos []) (pfx.getD []) == Ordering.gt &&
              !((keys.getD pos []).isPrefixOf (pfx.getD []))) = true
          · rw [if_pos h3]
          · rw [if_neg h3]
            exact ih (pos + 1)
        · rw [if_neg h2]
          by_cases h4 : (startK.isSome &&
              bytesCompare (keys.getD pos []) (startK.getD []) == Ordering.lt) = true
          · rw [if_pos h4]
            exact ih (pos + 1)
          · rw [if_neg h4]
            rw [if_pos (by
              simp only [Option.isSome_some, Option.getD_some, Bool.true_and]
              rcases h : bytesCompare (keys.getD pos []) [] with _ | _ | _
              · exact absurd h (bytesCompare_nil_right _)
              · decide
              · decide)]
      · rw [if_neg h1]
  refine ⟨part1, ?_, ?_⟩
  · intro f startKey
    unfold FST.RangeIterator FSTRangeIterator.HasNext
    have hzero : searchStrings f.keys [] = 0 := by
      by_contra hne
      have hpos : 0 < searchStrings f.keys [] := Nat.pos_of_ne_zero hne
      have hdc : ∀ i j, i ≤ j → j < f.keys.length →
          (fun h => bytesCompare (f.keys.getD h []) [] == Ordering.lt) j = true →
          (fun h => bytesCompare (f.keys.getD h []) [] == Ordering.lt) i = true := by
        intro i j _ _ hp
        dsimp only at hp
        rw [beq_lt_iff] at hp
        exact absurd hp (bytesCompare_nil_right _)
      obtain ⟨_, hlow, _⟩ := binLoop_lowerBound _ f.keys.length hdc
      have := hlow 0 hpos
      rw [beq_lt_iff] at this
      exact bytesCompare_nil_right _ this
    simp only [hzero]
    simp
  · intro compileRegex fsa s d lim hs
    unfold ComplexQueryExecute
    simp only [ne_eq, not_true_eq_false, if_false, hs, not_false_eq_true, if_true, or_true,
      true_or]
    have hcollect : collectKeys (fsa.keys.length + 1) (fsa.RangeIterator s []) = [] := by
      have hnext1 : (fsa.RangeIterator s []).Next.1 = false := by
        simp only [SimpleFSAIterator.Next, SimpleFSA.RangeIterator]
        exact part1 fsa.keys none (some s) _ _
      simp only [collectKeys]
      rcases hn : (fsa.RangeIterator s []).Next with ⟨b, it'⟩
      rw [hn] at hnext1
      simp only at hnext1
      subst hnext1
      rfl
    rw [hcollect]
    simp

theorem C9_empty_end_key_witness :
    ([97] : ByteStr) ≠ [] ∧
    ComplexQueryExecute (fun _ => none) (SimpleFSA.mk [[97], [98]])
      { pfx := [], startKey := [97], endKey := [], regexPattern := [],
        fuzzyPattern := [], fuzzyMaxDistance := 0, limit := 0 } = some ([], 0) :=
  ⟨by decide,
    C9_empty_end_key.2.2 (fun _ => none) (SimpleFSA.mk [[97], [98]]) [97] 0 0 (by decide)⟩

/-- The state graph of `AutomatonBuilder.BuildFromStrings` (regex.go, lines
363-437).  Every transition `buildRecursive` adds targets a state freshly
allocated just before (`AddState` + `AddTransition`), so the reachable part
of the flat arena is a tree; it is embedded as one.  Each state's children
are keyed by distinct label bytes and kept sorted by label (`AddTransition`
re-sorts after every insert; here they are produced in ascending order). -/
inductive Trie where
  | node (isFinal : Bool) (children : List (Nat × Trie))

def sumLen (l : List (List Nat)) : Nat := (l.map List.length).sum

/-- The tails of the suffixes starting with byte `c`: Go's `groups[char]`
(regex.go, lines 389-400) with the consumed byte dropped, `buildRecursive`
being embedded on the suffixes of its keys from the current depth. -/
def groupTails (suffixes : List (List Nat)) (c : Nat) : List (List Nat) :=
  suffixes.filterMap (fun k =>
    match k with
    | [] => none
    | b :: rest => if b = c then some rest else none)

theorem sumLen_filter_le (p : List Nat → Bool) (l : List (List Nat)) :
    sumLen (l.filter p) ≤ sumLen l := by
  induction l with
  | nil => simp [sumLen]
  | cons x xs ih =>
    by_cases h : p x
    · simp only [List.filter_cons, h, if_pos, sumLen, List.map_cons, List.sum_cons] at *
      omega
    · simp only [List.filter_cons, h, Bool.false_eq_true, if_false, sumLen, List.map_cons,
        List.sum_cons] at *
      omega

theorem sumLen_cons (x : List Nat) (xs : List (List Nat)) :
    sumLen (x :: xs) = x.length + sumLen xs := by
  simp [sumLen]

theorem groupTails_cons_nil (rest : List (List Nat)) (c : Nat) :
    groupTails ([] :: rest) c = groupTails rest c := by
  simp [groupTails]

theorem groupTails_cons (b : Nat) (t : List Nat) (rest : List (List Nat)) (c : Nat) :
    groupTails ((b :: t) :: rest) c =
      if b = c then t :: groupTails rest c else groupTails rest c := by
  by_cases h : b = c <;> simp [groupTails, h]

theorem sumLen_groupTails (suffixes : List (List Nat)) (c : Nat) :
    sumLen (groupTails suffixes c) + (groupTails suffixes c).length ≤ sumLen suffixes := by
  induction suffixes with
  | nil => simp [groupTails, sumLen]
  | cons k rest ih =>
    cases k with
    | nil =>
      rw [groupTails_cons_nil, sumLen_cons]
      omega
    | cons b t =>
      by_cases hb : b = c
      · rw [groupTails_cons, if_pos hb, sumLen_cons, sumLen_cons]
        simp only [List.length_cons]
        omega
      · rw [groupTails_cons, if_neg hb, sumLen_cons]
        omega

theorem sumLen_groupTails_filter_lt (suffixes : List (List Nat)) (c : Nat)
    (h : ¬ (groupTails suffixes c).isEmpty = true) :
    sumLen ((groupTails suffixes c).filter (fun t => !t.isEmpty)) < sumLen suffixes := by
  have h1 := sumLen_filter_le (fun t => !t.isEmpty) (groupTails suffixes c)
  have h2 := sumLen_groupTails suffixes c
  have h3 : 0 < (groupTails suffixes c).length := by
    cases hg : groupTails suffixes c with
    | nil => rw [hg] at h; simp at h
    | cons x xs => simp
  omega

/-- `buildRecursive` (regex.go, lines 383-437), on the suffixes of the keys
from the current depth: one child per occurring leading byte (ascending — the
Go map iteration order is immaterial since `AddTransition` keeps transitions
sorted by label), final when some key ends just after that byte, recursing on
the keys that continue.  Termination: the tails in a non-empty group are
strictly shorter than their sources. -/
def buildChildren (suffixes : List (List Nat)) : List (Nat × Trie) :=
  (List.range 256).filterMap (fun c =>
    if h : (groupTails suffixes c).isEmpty then none
    else
      some (c, Trie.node ((groupTails suffixes c).any List.isEmpty)
        (buildChildren ((groupTails suffixes c).filter (fun t => !t.isEmpty)))))
termination_by sumLen suffixes
decreasing_by
  exact sumLen_groupTails_filter_lt suffixes c (by simpa using h)

/-- `AutomatonBuilder.BuildFromStrings` (regex.go, lines 364-379): an empty
key list yields a single non-final state; otherwise the start state is final
iff the empty key occurs, with the trie below it. -/
def BuildFromStrings (keys : List (List Nat)) : Trie :=
  if keys.isEmpty then .node false []
  else .node (keys.any List.isEmpty) (buildChildren keys)

/-- `Automaton.FindTransition` (regex.go, lines 285-303): `sort.Search` over
the label-sorted transition list, then an equality check. -/
def findTransition (ts : List (Nat × Trie)) (label : Nat) : Option (Nat × Trie) :=
  let i := binLoop (fun h => decide ((ts.getD h (0, .node false [])).1 < label))
    (ts.length + 1) 0 ts.length
  if h : i < ts.length then
    if (ts.get ⟨i, h⟩).1 = label then some (ts.get ⟨i, h⟩) else none
  else none

/-- `Automaton.Accept` (regex.go, lines 305-319): walk the transitions byte
by byte, accept at a final state. -/
def Trie.accept : Trie → List Nat → Bool
  | .node f _, [] => f
  | .node _ cs, b :: rest =>
    match findTransition cs b with
    | none => false
    | some t => t.2.accept rest

theorem find?_eq_of_first {α : Type} (p : α → Bool) (l : List α) :
    ∀ (i : Nat) (hi : i < l.length), p (l.get ⟨i, hi⟩) = true →
    (∀ j (hj : j < l.length), j < i → p (l.get ⟨j, hj⟩) = false) →
    l.find? p = some (l.get ⟨i, hi⟩) := by
  induction l with
  | nil => intro i hi; intro h; simp at hi
  | cons x xs ih =>
    intro i hi hp hprev
    cases i with
    | zero =>
      have hp' : p x = true := hp
      rw [List.find?_cons_of_pos _ hp']
      rfl
    | succ i' =>
      have hx : p x = false := by simpa using hprev 0 (by simp) (by omega)
      rw [List.find?_cons_of_neg _ (by simp [hx])]
      exact ih i' (by simpa using hi) (by simpa using hp)
        (fun j hj hji => by simpa using hprev (j + 1) (by simpa using hj) (by omega))

theorem findTransition_eq_find? {ts : List (Nat × Trie)}
    (hs : (ts.map Prod.fst).Pairwise (· < ·)) (label : Nat) :
    findTransition ts label = ts.find? (fun e => decide (e.1 = label)) := by
  have hmono : ∀ (i j : Nat) (hi : i < ts.length) (hj : j < ts.length), i < j →
      (ts.get ⟨i, hi⟩).1 < (ts.get ⟨j, hj⟩).1 := by
    intro i j hi hj hij
    have := List.pairwise_iff_get.mp hs ⟨i, by simpa⟩ ⟨j, by simpa⟩ hij
    simpa [List.get_map] using this
  have hdc : ∀ i j, i ≤ j → j < ts.length →
      (fun h => decide ((ts.getD h (0, Trie.node false [])).1 < label)) j = true →
      (fun h => decide ((ts.getD h (0, Trie.node false [])).1 < label)) i = true := by
    intro i j hij hj hp
    have hi : i < ts.length := by omega
    dsimp only at hp ⊢
    rw [getDefault_eq_get ts _ j hj] at hp
    rw [getDefault_eq_get ts _ i hi]
    simp only [decide_eq_true_eq] at hp ⊢
    rcases Nat.lt_or_ge i j with h | h
    · exact Nat.lt_trans (hmono i j hi hj h) hp
    · have : i = j := by omega
      subst this
      exact hp
  obtain ⟨hlb, hlow, hhigh⟩ := binLoop_lowerBound _ ts.length hdc
  unfold findTransition
  by_cases hi : binLoop (fun h => decide ((ts.getD h (0, Trie.node false [])).1 < label))
      (ts.length + 1) 0 ts.length < ts.length
  · rw [dif_pos hi]
    by_cases heq : (ts.get ⟨_, hi⟩).1 = label
    · rw [if_pos heq]
      symm
      refine find?_eq_of_first _ ts _ hi (by simp only [decide_eq_true_eq]; exact heq) ?_
      intro j hj hji
      have := hlow j hji
      rw [getDefault_eq_get ts _ j hj] at this
      simp only [decide_eq_true_eq] at this
      simp only [decide_eq_false_iff_not]
      omega
    · rw [if_neg heq]
      symm
      rw [List.find?_eq_none]
      intro e he
      rcases List.mem_iff_get.mp he with ⟨⟨j, hj⟩, hget⟩
      simp only [decide_eq_true_eq]
      intro hlab
      rw [← hget] at hlab
      rcases Nat.lt_trichotomy j (binLoop (fun h =>
          decide ((ts.getD h (0, Trie.node false [])).1 < label)) (ts.length + 1) 0 ts.length)
        with hc | hc | hc
      · have := hlow j hc
        rw [getDefault_eq_get ts _ j hj] at this
        simp only [decide_eq_true_eq] at this
        omega
      · subst hc
        exact heq hlab
      · have h1 := hhigh _ (le_refl _) hi
        rw [getDefault_eq_get ts _ _ hi] at h1
        simp only [decide_eq_false_iff_not] at h1
        have h2 := hmono _ j hi hj hc
        omega
  · rw [dif_neg hi]
    symm
    rw [List.find?_eq_none]
    intro e he
    rcases List.mem_iff_get.mp he with ⟨⟨j, hj⟩, hget⟩
    simp only [decide_eq_true_eq]
    intro hlab
    rw [← hget] at hlab
    have := hlow j (by omega)
    rw [getDefault_eq_get ts _ j hj] at this
    simp only [decide_eq_true_eq] at this
    omega

theorem filterMap_children_fst_pairwise (g : Nat → Option (Nat × Trie))
    (hg : ∀ c e, g c = some e → e.1 = c) :
    ∀ (l : List Nat), l.Pairwise (· < ·) → ((l.filterMap g).map Prod.fst).Pairwise (· < ·) := by
  intro l
  induction l with
  | nil => intro _; simp
  | cons x rest ih =>
    intro hp
    rcases List.pairwise_cons.mp hp with ⟨hx, hrest⟩
    simp only [List.filterMap_cons]
    cases hgx : g x with
    | none => exact ih hrest
    | some e =>
      simp only [List.map_cons]
      refine List.pairwise_cons.mpr ⟨?_, ih hrest⟩
      intro y hy
      rcases List.mem_map.mp hy with ⟨e', he', rfl⟩
      rcases List.mem_filterMap.mp he' with ⟨c, hc, hgc⟩
      rw [hg x e hgx, hg c e' hgc]
      exact hx c hc

theorem find?_filterMap_not_mem (g : Nat → Option (Nat × Trie))
    (hg : ∀ c e, g c = some e → e.1 = c) (c : Nat) (l : List Nat) (hnm : c ∉ l) :
    (l.filterMap g).find? (fun e => decide (e.1 = c)) = none := by
  rw [List.find?_eq_none]
  intro e he
  rcases List.mem_filterMap.mp he with ⟨x, hx, hgx⟩
  simp only [decide_eq_true_eq]
  intro hec
  rw [hg x e hgx] at hec
  exact hnm (hec ▸ hx)

theorem find?_filterMap_children (g : Nat → Option (Nat × Trie))
    (hg : ∀ c e, g c = some e → e.1 = c) (c : Nat) :
    ∀ (l : List Nat), l.Nodup → c ∈ l →
    (l.filterMap g).find? (fun e => decide (e.1 = c)) = g c := by
  intro l
  induction l with
  | nil => intro _ hc; simp at hc
  | cons x rest ih =>
    intro hnd hc
    rcases List.pairwise_cons.mp hnd with ⟨hxnm, hndrest⟩
    simp only [List.filterMap_cons]
    by_cases hx : x = c
    · subst hx
      cases hgx : g x with
      | none =>
        exact find?_filterMap_not_mem g hg x rest (fun hm => hxnm x hm rfl)
      | some e =>
        rw [List.find?_cons_of_pos _ (by simp [hg x e hgx])]
    · have hcrest : c ∈ rest := by
        rcases List.mem_cons.mp hc with h | h
        · exact absurd h.symm hx
        · exact h
      cases hgx : g x with
      | none => exact ih hndrest hcrest
      | some e =>
        rw [List.find?_cons_of_neg _ (by simp [hg x e hgx, hx])]
        exact ih hndrest hcrest

theorem mem_groupTails {suffixes : List (List Nat)} {c : Nat} {t : List Nat} :
    t ∈ groupTails suffixes c ↔ (c :: t) ∈ suffixes := by
  unfold groupTails
  rw [List.mem_filterMap]
  constructor
  · rintro ⟨k, hk, hmatch⟩
    cases k with
    | nil => simp at hmatch
    | cons b rest =>
      by_cases hb : b = c
      · subst hb
        dsimp only at hmatch
        rw [if_pos rfl] at hmatch
        cases hmatch
        exact hk
      · simp [hb] at hmatch
  · intro h
    exact ⟨c :: t, h, by simp⟩

theorem accept_node_buildChildren (w : List Nat) :
    ∀ (suffixes : List (List Nat)) (f : Bool), (∀ b ∈ w, b < 256) →
    Trie.accept (.node f (buildChildren suffixes)) w =
      (if w = [] then f else decide (w ∈ suffixes)) := by
  induction w with
  | nil => intro suffixes f _; simp [Trie.accept]
  | cons c rest ih =>
    intro suffixes f hw
    have hc256 : c < 256 := hw c (by simp)
    rw [if_neg (by simp)]
    have hg : ∀ (x : Nat) (e : Nat × Trie),
        (if _ : (groupTails suffixes x).isEmpty then none
         else some (x, Trie.node ((groupTails suffixes x).any List.isEmpty)
           (buildChildren ((groupTails suffixes x).filter (fun t => !t.isEmpty))))) = some e →
        e.1 = x := by
      intro x e hge
      by_cases hx : (groupTails suffixes x).isEmpty
      · rw [dif_pos hx] at hge; cases hge
      · rw [dif_neg hx] at hge; cases hge; rfl
    have hsorted : ((buildChildren suffixes).map Prod.fst).Pairwise (· < ·) := by
      rw [buildChildren]
      exact filterMap_children_fst_pairwise _ hg (List.range 256) (List.pairwise_lt_range 256)
    have hfind : findTransition (buildChildren suffixes) c =
        (if _ : (groupTails suffixes c).isEmpty then none
         else some (c, Trie.node ((groupTails suffixes c).any List.isEmpty)
           (buildChildren ((groupTails suffixes c).filter (fun t => !t.isEmpty))))) := by
      rw [findTransition_eq_find? hsorted]
      conv_lhs => rw [buildChildren]
      exact find?_filterMap_children _ hg c (List.range 256) (List.nodup_range 256)
        (List.mem_range.mpr hc256)
    simp only [Trie.accept]
    rw [hfind]
    by_cases hge : (groupTails suffixes c).isEmpty
    · rw [dif_pos hge]
      symm
      simp only [decide_eq_false_iff_not]
      intro hmem
      have h1 : rest ∈ groupTails suffixes c := mem_groupTails.mpr hmem
      rw [List.isEmpty_iff.mp hge] at h1
      simp at h1
    · rw [dif_neg hge]
      dsimp only
      rw [ih _ _ (fun b hb => hw b (by simp [hb]))]
      by_cases hrest : rest = []
      · subst hrest
        rw [if_pos rfl]
        cases hb : (groupTails suffixes c).any List.isEmpty
        · symm
          simp only [decide_eq_false_iff_not]
          intro hmem
          have h1 : ([] : List Nat) ∈ groupTails suffixes c := mem_groupTails.mpr hmem
          have h2 : (groupTails suffixes c).any List.isEmpty = true :=
            List.any_eq_true.mpr ⟨[], h1, by simp⟩
          rw [hb] at h2
          cases h2
        · symm
          simp only [decide_eq_true_eq]
          rcases List.any_eq_true.mp hb with ⟨t, ht, hte⟩
          have h3 : t = [] := List.isEmpty_iff.mp hte
          subst h3
          exact mem_groupTails.mp ht
      · rw [if_neg hrest]
        apply decide_eq_decide.mpr
        constructor
        · intro hm
          have := List.mem_filter.mp hm
          exact mem_groupTails.mp this.1
        · intro hm
          refine List.mem_filter.mpr ⟨mem_groupTails.mpr hm, ?_⟩
          simp [List.isEmpty_iff, hrest]

/-- C2: for every strictly increasing list K of non-empty byte-string keys
and every byte string k, the array-backed membership test
`SimpleFSA(K).Contains(k)` and the graph walk `Accept(k)` over the automaton
of `AutomatonBuilder.BuildFromStrings(K)` return the same boolean. -/
theorem C2_contains_accept {K : List ByteStr} (hs : K.Pairwise bytesLt)
    (hne : ∀ k ∈ K, k ≠ []) (k : ByteStr) (hk : ∀ b ∈ k, b < 256) :
    (NewSimpleFSA K).Contains k = (BuildFromStrings K).accept k := by
  have hkeys : (NewSimpleFSA K).keys = K := by
    simp [NewSimpleFSA, sortStrings_eq_self hs]
  have hcon : (NewSimpleFSA K).Contains k = true ↔ k ∈ K := by
    rw [SimpleFSA.Contains_iff_mem (by rw [hkeys]; exact hs), hkeys]
  unfold BuildFromStrings
  by_cases hKe : K.isEmpty
  · rw [if_pos hKe]
    have hK : K = [] := List.isEmpty_iff.mp hKe
    subst hK
    have hfalse : (NewSimpleFSA []).Contains k = false := by
      cases hc : (NewSimpleFSA []).Contains k
      · rfl
      · exact absurd (hcon.mp hc) (by simp)
    rw [hfalse]
    cases k with
    | nil => rfl
    | cons c rest =>
      simp [Trie.accept, findTransition, binLoop]
  · rw [if_neg hKe]
    rw [accept_node_buildChildren k K _ hk]
    by_cases hknil : k = []
    · subst hknil
      rw [if_pos rfl]
      have h1 : K.any List.isEmpty = false := by
        cases hb : K.any List.isEmpty
        · rfl
        · rcases List.any_eq_true.mp hb with ⟨t, ht, hte⟩
          exact absurd (List.isEmpty_iff.mp hte) (hne t ht)
      rw [h1]
      cases hc : (NewSimpleFSA K).Contains []
      · rfl
      · exact absurd (hcon.mp hc) (fun hmem => hne [] hmem rfl)
    · rw [if_neg hknil]
      cases hc : (NewSimpleFSA K).Contains k with
      | true =>
        symm
        rw [decide_eq_true_eq]
        exact hcon.mp hc
      | false =>
        symm
        rw [decide_eq_false_iff_not]
        intro hmem
        have := hcon.mpr hmem
        rw [hc] at this
        cases this

theorem C2_contains_accept_witness :
    ([[97], [97, 98]] : List ByteStr).Pairwise bytesLt ∧
    (∀ k ∈ ([[97], [97, 98]] : List ByteStr), k ≠ []) ∧
    (∀ b ∈ ([97] : ByteStr), b < 256) ∧
    (NewSimpleFSA [[97], [97, 98]]).Contains [97]
      = (BuildFromStrings [[97], [97, 98]]).accept [97] :=
  ⟨by decide, by decide, by decide,
    C2_contains_accept (by decide) (by decide) [97] (by decide)⟩
